import Mathlib

/-!
Verification of the batch translation bridge (`src/bridge/server.mjs`).

The bridge's pure core is shallowly embedded below: JS strings are Lean
`String`s (lists of characters; `.length`/`.slice` count characters), JS
`Map`s are insertion-ordered association lists, `JSON.parse` is modelled by
an executable JSON parser over the same value universe, and the stateful
orchestrator `translateBatch` is modelled as a pure function over an
explicit cache with the external `codex` subprocess abstracted as an
oracle indexed by invocation number.
-/

namespace Bridge

/-- Whitespace recognized by JS `String.prototype.trim` (ASCII part). -/
def jsWs (c : Char) : Bool :=
  c == ' ' || c == '\t' || c == '\n' || c == '\r' || c == '\x0b' || c == '\x0c'

/-- Character-list form of JS `trim`: drop whitespace at both ends. -/
def jsTrimChars (cs : List Char) : List Char :=
  ((cs.dropWhile jsWs).reverse.dropWhile jsWs).reverse

/-- Model of JS `String.prototype.trim`. -/
def jsTrim (s : String) : String := ⟨jsTrimChars s.data⟩

/-- Model of `text.replace(/\r\n/g, "\n")` (left-to-right, non-overlapping). -/
def crlfToLf : List Char → List Char
  | [] => []
  | '\r' :: '\n' :: rest => '\n' :: crlfToLf rest
  | c :: rest => c :: crlfToLf rest

/-- Model of `String.prototype.split("\n")`. -/
def splitNl : List Char → List (List Char)
  | [] => [[]]
  | '\n' :: rest => [] :: splitNl rest
  | c :: rest =>
    match splitNl rest with
    | [] => [[c]]
    | g :: gs => (c :: g) :: gs

/-- Model of `Array.prototype.join("\n")` on lines. -/
def joinNl : List (List Char) → List Char
  | [] => []
  | [l] => l
  | l :: ls => l ++ '\n' :: joinNl ls

/-- `pre.isPrefixOf l` as a boolean, for JS `String.prototype.startsWith`. -/
def startsWithChars : List Char → List Char → Bool
  | [], _ => true
  | _ :: _, [] => false
  | p :: ps, c :: cs => p == c && startsWithChars ps cs

/-- JSON values as produced by `JSON.parse`. Numbers keep their raw literal
text: no claim depends on numeric values, and binary floating point is out
of scope of this embedding. Objects are field lists in source order
(duplicate keys resolved to the last occurrence on access, as in JS). -/
inductive Json where
  | null
  | bool (b : Bool)
  | num (raw : String)
  | str (s : String)
  | arr (elems : List Json)
  | obj (fields : List (String × Json))
deriving Repr, Inhabited, BEq

/-- JS property access `value[k]` on a parsed-JSON value: `none` when the
value is not an object or the key is missing (JS `undefined`); duplicate
keys resolve to the last occurrence, as `JSON.parse` does. -/
def Json.getField : Json → String → Option Json
  | .obj fields, k => ((fields.filter (fun p => p.1 == k)).getLast?).map (·.2)
  | _, _ => none

/-- A normalized translation item (`{id, text}`). -/
structure Item where
  id : String
  text : String
deriving Repr, Inhabited, DecidableEq

/-- One extractor result row (`{id, translatedText}`). -/
structure Row where
  id : String
  translatedText : String
deriving Repr, Inhabited, DecidableEq

/-- The id assigned by `normalizeItems` (server.mjs:128-131): the trimmed
caller-supplied id when it is a string with non-empty trim, else the
positional id `item-`(index+1). -/
def normItemIdOf (current : Json) (index : Nat) : String :=
  match current.getField "id" with
  | some (.str s) =>
    if (jsTrim s).length > 0 then jsTrim s else "item-" ++ Nat.repr (index + 1)
  | _ => "item-" ++ Nat.repr (index + 1)

/-- The text extracted by `normalizeItems` (server.mjs:133): CRLF folded to
LF then trimmed when the field is a string, `""` otherwise. -/
def normItemTextOf (current : Json) : String :=
  match current.getField "text" with
  | some (.str t) => jsTrim ⟨crlfToLf t.data⟩
  | _ => ""

/-- `!current || typeof current !== "object"` is false exactly for objects
and arrays (JS `null` is falsy; arrays have typeof "object"). -/
def isObjectLike : Json → Bool
  | .obj _ => true
  | .arr _ => true
  | _ => false

/-- Loop body of `normalizeItems` (server.mjs:122-140), indexed from the
original raw position. -/
def normItemsGo : List Json → Nat → Nat → List Item
  | [], _, _ => []
  | current :: rest, index, maxChars =>
    if isObjectLike current then
      let text := normItemTextOf current
      if text = "" then normItemsGo rest (index + 1) maxChars
      else
        let clipped :=
          if text.length > maxChars then (⟨text.data.take maxChars⟩ : String) ++ "..." else text
        ⟨normItemIdOf current index, clipped⟩ :: normItemsGo rest (index + 1) maxChars
    else normItemsGo rest (index + 1) maxChars

/-- Embedding of `normalizeItems` (server.mjs:116-143). `rawItems` is the
parsed JSON value of `body.items`; non-arrays give `[]`. -/
def normalizeItems (rawItems : Json) (maxCharsPerItem : Nat) : List Item :=
  match rawItems with
  | .arr l => normItemsGo l 0 maxCharsPerItem
  | _ => []

/-- The translation cache: a JS `Map` with string keys and values, kept in
insertion order. Operations below preserve key uniqueness. -/
abbrev CacheMap := List (String × String)

/-- `Map.prototype.get` (first — and only — binding of the key). -/
def mapGet (m : CacheMap) (k : String) : Option String :=
  (m.find? (fun p => p.1 == k)).map (·.2)

/-- `Map.prototype.has`. -/
def mapHas (m : CacheMap) (k : String) : Bool := (mapGet m k).isSome

/-- `Map.prototype.set`: update in place when present (keeping insertion
order), else append. -/
def mapSet (m : CacheMap) (k v : String) : CacheMap :=
  if mapHas m k then m.map (fun p => if p.1 == k then (k, v) else p) else m ++ [(k, v)]

/-- `Map.prototype.delete`. -/
def mapDelete (m : CacheMap) (k : String) : CacheMap :=
  m.filter (fun p => p.1 != k)

/-- `MAX_CACHE_SIZE` (server.mjs:15). -/
def MAX_CACHE_SIZE : Nat := 3000

/-- Embedding of `setCacheValue` (server.mjs:360-368): when the map is at
capacity, delete the first inserted key — guarded by JS truthiness, so an
empty-string first key would not be deleted — then insert. -/
def setCacheValue (m : CacheMap) (key value : String) : CacheMap :=
  let m1 :=
    if m.length ≥ MAX_CACHE_SIZE then
      match m.head? with
      | some p => if p.1 ≠ "" then mapDelete m p.1 else m
      | none => m
    else m
  mapSet m1 key value

/-- Request options as resolved by `handleTranslate` before calling
`translateBatch` (absent model is the empty string, as in the source). -/
structure TranslationOptions where
  sourceLang : String
  targetLang : String
  model : String
  mode : String
  tone : String
  batchSize : Nat
deriving Repr, Inhabited, DecidableEq

/-- Embedding of `cacheKey` (server.mjs:507-516): the five options and the
exact item text joined with `"\u0001"`. -/
def cacheKey (item : Item) (options : TranslationOptions) : String :=
  options.sourceLang ++ "\x01" ++ options.targetLang ++ "\x01" ++ options.model ++
    "\x01" ++ options.mode ++ "\x01" ++ options.tone ++ "\x01" ++ item.text

/-- The PATH warning line filtered out of codex output (server.mjs:44). -/
def pathWarning : String := "WARNING: proceeding, even though we could not update PATH"

/-- Embedding of `sanitizeOutput` (server.mjs:37-47). -/
def sanitizeOutput (text : String) : String :=
  if text = "" then ""
  else
    jsTrim ⟨joinNl ((splitNl text.data).filter
      (fun line => ¬ startsWithChars pathWarning.data line))⟩

/-- Embedding of `tail` (server.mjs:191-197): the last `maxLines` lines of
the trimmed text. -/
def tail (text : String) (maxLines : Nat) : String :=
  if text = "" then ""
  else
    let lines := splitNl (jsTrim text).data
    ⟨joinNl (lines.drop (lines.length - maxLines))⟩

/-- Model of `output.replace(/^"|"$/g, "")`: strip one leading and one
trailing double quote. -/
def stripEdgeQuotes (s : String) : String :=
  let l1 := match s.data with
    | '"' :: rest => rest
    | l => l
  let l2 := if l1.getLast? = some '"' then l1.dropLast else l1
  (⟨l2⟩ : String)

/-! ### Model of `JSON.parse`

An executable parser for RFC 8259 JSON over character lists, used to model
the `JSON.parse` calls inside `extractJsonCandidate` and
`parseTranslationOutput`. Unicode escapes denoting surrogate halves are
rejected (Lean `Char` is a scalar value); no claim exercises them. -/

/-- JSON whitespace (`ws` in RFC 8259). -/
def jsonWs (c : Char) : Bool :=
  c == ' ' || c == '\t' || c == '\n' || c == '\r'

/-- Drop leading JSON whitespace. -/
def skipWs (cs : List Char) : List Char := cs.dropWhile jsonWs

/-- Value of a hex digit. -/
def hexDigitVal (c : Char) : Option Nat :=
  if '0' ≤ c ∧ c ≤ '9' then some (c.toNat - '0'.toNat)
  else if 'a' ≤ c ∧ c ≤ 'f' then some (c.toNat - 'a'.toNat + 10)
  else if 'A' ≤ c ∧ c ≤ 'F' then some (c.toNat - 'A'.toNat + 10)
  else none

/-- JSON string escapes (other than `\u`). -/
def escChar : Char → Option Char
  | '"' => some '"'
  | '\\' => some '\\'
  | '/' => some '/'
  | 'b' => some '\x08'
  | 'f' => some '\x0c'
  | 'n' => some '\n'
  | 'r' => some '\r'
  | 't' => some '\t'
  | _ => none

/-- Parse the body of a JSON string literal (after the opening quote),
returning the contents and the remainder after the closing quote. -/
def parseStrChars : List Char → Option (List Char × List Char)
  | [] => none
  | '"' :: rest => some ([], rest)
  | '\\' :: 'u' :: h1 :: h2 :: h3 :: h4 :: rest =>
    match hexDigitVal h1, hexDigitVal h2, hexDigitVal h3, hexDigitVal h4 with
    | some a, some b, some c, some d =>
      let code := a * 4096 + b * 256 + c * 16 + d
      if code.isValidChar then
        (parseStrChars rest).map (fun p => (Char.ofNat code :: p.1, p.2))
      else none
    | _, _, _, _ => none
  | '\\' :: e :: rest =>
    match escChar e with
    | some c => (parseStrChars rest).map (fun p => (c :: p.1, p.2))
    | none => none
  | c :: rest =>
    if c.toNat ≥ 0x20 then (parseStrChars rest).map (fun p => (c :: p.1, p.2))
    else none

/-- Leading decimal digits and the remainder. -/
def digitSpan (cs : List Char) : List Char × List Char :=
  (cs.takeWhile Char.isDigit, cs.dropWhile Char.isDigit)

/-- Optional exponent part of a JSON number. -/
def parseExpPart (acc : List Char) (cs : List Char) : Option (List Char × List Char) :=
  match cs with
  | e :: rest =>
    if e = 'e' ∨ e = 'E' then
      let (sign, r1) :=
        match rest with
        | '+' :: r => (['+'], r)
        | '-' :: r => (['-'], r)
        | _ => (([] : List Char), rest)
      let (ds, r2) := digitSpan r1
      if ds = [] then none else some (acc ++ e :: (sign ++ ds), r2)
    else some (acc, cs)
  | [] => some (acc, [])

/-- Optional fraction then exponent part of a JSON number. -/
def parseFracPart (acc : List Char) (cs : List Char) : Option (List Char × List Char) :=
  match cs with
  | '.' :: r1 =>
    let (ds, r2) := digitSpan r1
    if ds = [] then none else parseExpPart (acc ++ '.' :: ds) r2
  | _ => parseExpPart acc cs

/-- JSON number literal: sign, integer part (no leading zeros), fraction,
exponent. Returns the raw literal text. -/
def parseNumber (cs : List Char) : Option (List Char × List Char) :=
  let (sign, cs1) := match cs with | '-' :: r => ((['-'] : List Char), r) | _ => ([], cs)
  match cs1 with
  | '0' :: r1 => parseFracPart (sign ++ ['0']) r1
  | c :: _ =>
    if c.isDigit then
      let (ds, r1) := digitSpan cs1
      parseFracPart (sign ++ ds) r1
    else none
  | [] => none

mutual

/-- Parse one JSON value. `fuel` only bounds recursion depth; `jsonParse`
supplies enough for any input of its length. -/
def parseValue : Nat → List Char → Option (Json × List Char)
  | 0, _ => none
  | fuel + 1, cs =>
    match skipWs cs with
    | [] => none
    | c :: rest =>
      if c = '{' then
        match skipWs rest with
        | '}' :: r2 => some (.obj [], r2)
        | r2 => parseMembers fuel r2 []
      else if c = '[' then
        match skipWs rest with
        | ']' :: r2 => some (.arr [], r2)
        | r2 => parseElems fuel r2 []
      else if c = '"' then
        (parseStrChars rest).map (fun p => (.str ⟨p.1⟩, p.2))
      else if c = 't' then
        if startsWithChars ['r', 'u', 'e'] rest then some (.bool true, rest.drop 3) else none
      else if c = 'f' then
        if startsWithChars ['a', 'l', 's', 'e'] rest then some (.bool false, rest.drop 4) else none
      else if c = 'n' then
        if startsWithChars ['u', 'l', 'l'] rest then some (.null, rest.drop 3) else none
      else if c = '-' ∨ c.isDigit then
        (parseNumber (c :: rest)).map (fun p => (.num ⟨p.1⟩, p.2))
      else none

/-- Parse the members of a JSON object after its `{` (at least one). -/
def parseMembers : Nat → List Char → List (String × Json) → Option (Json × List Char)
  | 0, _, _ => none
  | fuel + 1, cs, acc =>
    match skipWs cs with
    | '"' :: rest =>
      match parseStrChars rest with
      | none => none
      | some (key, r1) =>
        match skipWs r1 with
        | ':' :: r2 =>
          match parseValue fuel r2 with
          | none => none
          | some (v, r3) =>
            match skipWs r3 with
            | ',' :: r4 => parseMembers fuel r4 (acc ++ [(⟨key⟩, v)])
            | '}' :: r4 => some (.obj (acc ++ [(⟨key⟩, v)]), r4)
            | _ => none
        | _ => none
    | _ => none

/-- Parse the elements of a JSON array after its `[` (at least one). -/
def parseElems : Nat → List Char → List Json → Option (Json × List Char)
  | 0, _, _ => none
  | fuel + 1, cs, acc =>
    match parseValue fuel cs with
    | none => none
    | some (v, r1) =>
      match skipWs r1 with
      | ',' :: r2 => parseElems fuel r2 (acc ++ [v])
      | ']' :: r2 => some (.arr (acc ++ [v]), r2)
      | _ => none

end

/-- Model of `JSON.parse`: parse one value and require only whitespace
after it. The fuel `2·length + 8` dominates the recursion depth, which
grows by at most two per consumed character. -/
def jsonParse (s : String) : Option Json :=
  match parseValue (2 * s.data.length + 8) s.data with
  | some (v, rest) => if skipWs rest = [] then some v else none
  | none => none

/-! ### Output extraction (server.mjs:199-358) -/

/-- Scan state step of `sliceBalancedJson` (server.mjs:199-243): `stack` of
open delimiters, string/escape flags, and the consumed characters in
reverse in `acc`. Returns the consumed slice once the stack empties. -/
def sliceBalancedAux : List Char → List Char → Bool → Bool → List Char → Option (List Char)
  | [], _, _, _, _ => none
  | c :: rest, stack, inString, escaped, acc =>
    if inString then
      if escaped then sliceBalancedAux rest stack true false (c :: acc)
      else if c = '\\' then sliceBalancedAux rest stack true true (c :: acc)
      else if c = '"' then sliceBalancedAux rest stack false false (c :: acc)
      else sliceBalancedAux rest stack true false (c :: acc)
    else if c = '"' then sliceBalancedAux rest stack true false (c :: acc)
    else if c = '{' ∨ c = '[' then sliceBalancedAux rest (c :: stack) false false (c :: acc)
    else if c = '}' ∨ c = ']' then
      match stack with
      | [] => none
      | op :: stack2 =>
        if (op = '{' ∧ c ≠ '}') ∨ (op = '[' ∧ c ≠ ']') then none
        else if stack2.isEmpty then some (c :: acc).reverse
        else sliceBalancedAux rest stack2 false false (c :: acc)
    else sliceBalancedAux rest stack false false (c :: acc)

/-- Embedding of `sliceBalancedJson(text, startIndex)` on the suffix of the
text beginning at `startIndex`. -/
def sliceBalancedJson (cs : List Char) : Option (List Char) :=
  sliceBalancedAux cs [] false false []

/-- Case-insensitive optional `json` tag after a code-fence opening
(the `(?:json)?` with the regex `i` flag, server.mjs:258). -/
def stripJsonTag (cs : List Char) : List Char :=
  match cs with
  | j :: s :: o :: n :: rest =>
    if (j = 'j' ∨ j = 'J') ∧ (s = 's' ∨ s = 'S') ∧ (o = 'o' ∨ o = 'O') ∧ (n = 'n' ∨ n = 'N')
    then rest else cs
  | _ => cs

/-- Content before the next triple-backtick, if any (the lazy group of the
fence regex). -/
def findFenceClose : List Char → Option (List Char)
  | [] => none
  | '`' :: '`' :: '`' :: _ => some []
  | c :: rest => (findFenceClose rest).map (c :: ·)

/-- Model of `trimmed.match(/```(?:json)?\s*([\s\S]*?)```/i)` restricted to
the captured group: content between the first fence opening (with optional
`json` tag) and the next fence. The `\s*` is not consumed here; the caller
trims the group, which is equivalent. -/
def fencedMatch : List Char → Option (List Char)
  | '`' :: '`' :: '`' :: rest => findFenceClose (stripJsonTag rest)
  | _ :: rest => fencedMatch rest
  | [] => none

/-- Left-to-right scan over candidate opening positions
(server.mjs:269-286): at each `{`/`[`, take the balanced slice and accept
it if it parses. -/
def extractScanGo : List Char → Option (List Char)
  | [] => none
  | c :: rest =>
    if c = '{' ∨ c = '[' then
      match sliceBalancedJson (c :: rest) with
      | some candidate =>
        if (jsonParse ⟨candidate⟩).isSome then some candidate else extractScanGo rest
      | none => extractScanGo rest
    else extractScanGo rest

/-- Embedding of `extractJsonCandidate` (server.mjs:245-289): whole trimmed
output, else fenced block, else balanced-scan candidates. -/
def extractJsonCandidate (text : String) : Option String :=
  let trimmed := jsTrim text
  if trimmed = "" then none
  else if (jsonParse trimmed).isSome then some trimmed
  else
    let fenced : Option String :=
      match fencedMatch trimmed.data with
      | some inner =>
        let f := jsTrim ⟨inner⟩
        if f ≠ "" ∧ (jsonParse f).isSome then some f else none
      | none => none
    match fenced with
    | some f => some f
    | none => (extractScanGo trimmed.data).map (fun l => (⟨l⟩ : String))

/-- The candidate row list of `normalizeParsedResults` (server.mjs:291-302):
a bare array, else an object's `results` array, else its `translations`
array, else empty. -/
def rowsOf (parsed : Json) : List Json :=
  match parsed with
  | .arr l => l
  | .obj _ =>
    match parsed.getField "results" with
    | some (.arr l) => l
    | _ =>
      match parsed.getField "translations" with
      | some (.arr l) => l
      | _ => []
  | _ => []

/-- Resolved translated text of one row (server.mjs:321-328):
`translatedText`, else `translation`, else `text`, else `""`. -/
def rowTranslatedText (row : Json) : String :=
  match row.getField "translatedText" with
  | some (.str s) => s
  | _ =>
    match row.getField "translation" with
    | some (.str s) => s
    | _ =>
      match row.getField "text" with
      | some (.str s) => s
      | _ => ""

/-- Resolved id of one row (server.mjs:320): its `id` string, else the
positional batch item's id. -/
def rowIdOf (row : Json) (batchItems : List Item) (index : Nat) : Option String :=
  match row.getField "id" with
  | some (.str s) => some s
  | _ => (batchItems.get? index).map (·.id)

/-- Row loop of `normalizeParsedResults` (server.mjs:304-333). String rows
pair positionally (and are kept even when blank); object rows need a truthy
id and truthy trimmed text. -/
def normRowsGo : List Json → List Item → Nat → List Row
  | [], _, _ => []
  | row :: rest, batchItems, index =>
    match row with
    | .str s =>
      match batchItems.get? index with
      | some source => ⟨source.id, jsTrim s⟩ :: normRowsGo rest batchItems (index + 1)
      | none => normRowsGo rest batchItems (index + 1)
    | .obj _ =>
      (match rowIdOf row batchItems index with
      | some id =>
        if id ≠ "" ∧ jsTrim (rowTranslatedText row) ≠ "" then
          ⟨id, jsTrim (rowTranslatedText row)⟩ :: normRowsGo rest batchItems (index + 1)
        else normRowsGo rest batchItems (index + 1)
      | none => normRowsGo rest batchItems (index + 1))
    | _ => normRowsGo rest batchItems (index + 1)

/-- Embedding of `normalizeParsedResults` (server.mjs:291-336). -/
def normalizeParsedResults (parsed : Json) (batchItems : List Item) : List Row :=
  normRowsGo (rowsOf parsed) batchItems 0

/-- Structured part of `parseTranslationOutput` (server.mjs:344-351): rows
recovered via the extractor, `[]` when no strategy yields any. The inner
`none` branch of `jsonParse` is unreachable because `extractJsonCandidate`
returns only parseable candidates. -/
def structuredRows (output : String) (batchItems : List Item) : List Row :=
  match extractJsonCandidate output with
  | some candidate =>
    match jsonParse candidate with
    | some parsed => normalizeParsedResults parsed batchItems
    | none => []
  | none => []

/-- Embedding of `parseTranslationOutput` (server.mjs:338-358); thrown
`Error`s become `Except.error` of the message. -/
def parseTranslationOutput (rawOutput : String) (batchItems : List Item) :
    Except String (List Row) :=
  let output := jsTrim rawOutput
  if output = "" then .error "Codex returned empty output"
  else
    let normalized := structuredRows output batchItems
    if normalized.length > 0 then .ok normalized
    else
      match batchItems with
      | [item] => .ok [⟨item.id, jsTrim (stripEdgeQuotes output)⟩]
      | _ => .error ("Unable to parse Codex output as translation JSON. Output tail: "
          ++ tail output 12)

/-! ### Orchestrator (server.mjs:465-657)

The subprocess layer (`runProcess`, `runCodexTranslation`) performs IO; its
observable outcome per invocation is a `CodexRaw`. `translateBatch` is
embedded as a pure function of the module cache, the resolved options, the
normalized items and an oracle assigning each invocation its outcome, and
additionally reports instrumentation: the exact `setCacheValue` calls, the
per-item merge outcomes, and how many codex invocations were issued. -/

/-- JS `a || b` on strings (empty string is falsy). -/
def truthyOr (a b : String) : String := if a = "" then b else a

/-- JS `map.get(k) || b`. -/
def truthyOrOpt (a : Option String) (b : String) : String :=
  match a with
  | some v => truthyOr v b
  | none => b

/-- `parsedById.get(id)` followed by the `if (!translated)` truthiness
check: `none` when absent or empty. -/
def truthyGet (m : CacheMap) (k : String) : Option String :=
  match mapGet m k with
  | some v => if v = "" then none else some v
  | none => none

/-- Iteration of `chunk`'s for-loop; the fuel (initially `items.length`)
dominates the iteration count for any `chunkSize ≥ 1`. -/
def chunkGo : Nat → List Item → Nat → List (List Item)
  | 0, _, _ => []
  | _, [], _ => []
  | fuel + 1, items, chunkSize =>
    items.take chunkSize :: chunkGo fuel (items.drop chunkSize) chunkSize

/-- Embedding of `chunk` (server.mjs:145-151); faithful for
`chunkSize ≥ 1` (the orchestrator clamps `batchSize` into [1,20]). -/
def chunk (items : List Item) (chunkSize : Nat) : List (List Item) :=
  chunkGo items.length items chunkSize

/-- Observable outcome of one `runCodexTranslation` invocation
(server.mjs:425-463): exit code, raw streams, the contents of the `-o`
last-message file, and whether the timeout fired. -/
structure CodexRaw where
  code : Int
  stdout : String
  stderr : String
  lastMessage : String
  timedOut : Bool
deriving Repr, Inhabited, DecidableEq

/-- An error thrown with `createHttpError` (server.mjs:24-28). -/
structure HttpError where
  statusCode : Nat
  message : String
deriving Repr, Inhabited, DecidableEq

/-- The `meta` object of a translate response (server.mjs:587-593). -/
structure ResponseMeta where
  provider : String
  model : String
  total : Nat
  cacheHits : Nat
  generated : Nat
deriving Repr, Inhabited, DecidableEq

/-- A translate response (server.mjs:584-594). -/
structure BatchResponse where
  results : List Row
  warnings : List String
  meta : ResponseMeta
deriving Repr, Inhabited, DecidableEq

/-- Result of `translateBatch` plus observations: the final module cache,
every `(key, value)` passed to `setCacheValue`, each batch item paired with
the truthy extractor value merged for it (`none` = fallback), and the
number of codex invocations. -/
structure BatchOutcome where
  resp : BatchResponse
  cache : CacheMap
  insertions : List (String × String)
  merged : List (Item × Option String)
  invocations : Nat
deriving Repr, Inhabited, DecidableEq

/-- Orchestrator loop state: module cache, the `resultById` map, warnings,
and the instrumentation fields of `BatchOutcome`. -/
structure TBState where
  cache : CacheMap
  resultById : CacheMap
  warnings : List String
  insertions : List (String × String)
  merged : List (Item × Option String)
  invocations : Nat
deriving Repr, Inhabited, DecidableEq

/-- One step of the cache partition loop of `translateBatch`
(server.mjs:523-531). -/
def partitionStep (c : CacheMap) (options : TranslationOptions)
    (acc : CacheMap × List Item × Nat) (item : Item) : CacheMap × List Item × Nat :=
  if mapHas c (cacheKey item options) then
    (mapSet acc.1 item.id ((mapGet c (cacheKey item options)).getD ""),
      acc.2.1, acc.2.2 + 1)
  else (acc.1, acc.2.1 ++ [item], acc.2.2)

/-- Cache partition loop of `translateBatch` (server.mjs:519-531),
returning `(resultById, pending, cacheHits)`. -/
def partitionItems (c : CacheMap) (options : TranslationOptions) (items : List Item) :
    CacheMap × List Item × Nat :=
  items.foldl (partitionStep c options) ([], [], 0)

/-- The warning pushed for an item the extractor produced no row for
(server.mjs:569). -/
def fallbackMsg (item : Item) : String :=
  "Missing translation for id=" ++ item.id ++ "; falling back to source text."

/-- The merge loop body of `translateBatch` (server.mjs:566-576): an item
with a truthy parsed translation records it and caches it; otherwise a
warning is pushed and the item's own text is recorded (and not cached). -/
def mergeStep (options : TranslationOptions) (parsedById : CacheMap)
    (st : TBState) (item : Item) : TBState :=
  match truthyGet parsedById item.id with
  | none =>
    { st with
      warnings := st.warnings ++ [fallbackMsg item]
      resultById := mapSet st.resultById item.id item.text
      merged := st.merged ++ [(item, none)] }
  | some translated =>
    { st with
      resultById := mapSet st.resultById item.id translated
      cache := setCacheValue st.cache (cacheKey item options) translated
      insertions := st.insertions ++ [(cacheKey item options, translated)]
      merged := st.merged ++ [(item, some translated)] }

/-- One iteration of `translateBatch`'s chunk loop (server.mjs:536-577),
given the oracle outcome `raw` of its codex invocation. -/
def procBatch (options : TranslationOptions) (raw : CodexRaw) (batch : List Item)
    (st : TBState) : Except HttpError TBState :=
  let lastMessage := sanitizeOutput raw.lastMessage
  let cleanStdout := sanitizeOutput raw.stdout
  let cleanStderr := sanitizeOutput raw.stderr
  if raw.timedOut then .error ⟨504, "Codex request timed out"⟩
  else if raw.code ≠ 0 ∧ lastMessage = "" ∧ cleanStdout = "" then
    .error ⟨502, "Codex exec failed (exit " ++ toString raw.code ++ "). "
      ++ tail (truthyOr cleanStderr (truthyOr raw.stderr "")) 20⟩
  else
    match parseTranslationOutput (truthyOr lastMessage cleanStdout) batch with
    | .error msg =>
      let details := tail (truthyOr cleanStderr (truthyOr raw.stderr "")) 12
      .error ⟨502, msg ++ (if details ≠ "" then " | stderr: " ++ details else "")⟩
    | .ok parsedRows =>
      let parsedById := parsedRows.foldl (fun m r => mapSet m r.id r.translatedText) []
      .ok (batch.foldl (mergeStep options parsedById) st)

/-- The chunk loop of `translateBatch`; a failing chunk aborts the request,
carrying the number of invocations issued so far. -/
def procBatches (options : TranslationOptions) (oracle : Nat → CodexRaw) :
    List (List Item) → TBState → Except (HttpError × Nat) TBState
  | [], st => .ok st
  | batch :: rest, st =>
    match procBatch options (oracle st.invocations) batch
        { st with invocations := st.invocations + 1 } with
    | .error e => .error (e, st.invocations + 1)
    | .ok st2 => procBatches options oracle rest st2

/-- Embedding of `translateBatch` (server.mjs:518-595) over an explicit
initial cache `c`, with codex outcomes supplied by `oracle` (invocation
number ↦ outcome). Errors carry the invocation count at failure. -/
def translateBatch (c : CacheMap) (options : TranslationOptions) (items : List Item)
    (oracle : Nat → CodexRaw) : Except (HttpError × Nat) BatchOutcome :=
  let part := partitionItems c options items
  let batches := chunk part.2.1 options.batchSize
  match procBatches options oracle batches ⟨c, part.1, [], [], [], 0⟩ with
  | .error e => .error e
  | .ok st =>
    .ok {
      resp := {
        results := items.map
          (fun item => ⟨item.id, truthyOrOpt (mapGet st.resultById item.id) item.text⟩)
        warnings := st.warnings
        meta := {
          provider := "openai-codex-auth"
          model := truthyOr options.model "default"
          total := items.length
          cacheHits := part.2.2
          generated := items.length - part.2.2 } }
      cache := st.cache
      insertions := st.insertions
      merged := st.merged
      invocations := st.invocations }

/-- Outcome of one `runProcess` call as observed by `getHealth`
(server.mjs:370-423). -/
structure ProcessResult where
  code : Int
  stdout : String
  stderr : String
  timedOut : Bool
deriving Repr, Inhabited, DecidableEq

/-- The health snapshot (server.mjs:471-477). -/
structure HealthSnapshot where
  ok : Bool
  codexInstalled : Bool
  codexVersion : Option String
  loggedIn : Bool
  loginMessage : Option String
deriving Repr, Inhabited, DecidableEq

/-- ASCII lower-casing, for the case-insensitive login regexes. -/
def lowerChars (cs : List Char) : List Char :=
  cs.map (fun c => if 'A' ≤ c ∧ c ≤ 'Z' then Char.ofNat (c.toNat + 32) else c)

/-- Substring test on character lists. -/
def containsChars (needle : List Char) : List Char → Bool
  | [] => startsWithChars needle []
  | c :: rest => startsWithChars needle (c :: rest) || containsChars needle rest

/-- `/logged in/i.test(s) && !/not logged in/i.test(s)` (server.mjs:496). -/
def loggedInTest (s : String) : Bool :=
  containsChars "logged in".data (lowerChars s.data) &&
    ! containsChars "not logged in".data (lowerChars s.data)

/-- Embedding of `getHealth` (server.mjs:465-505) given the outcomes of its
two probe invocations (`codex --version`, `codex login status`), where
`.error` is a thrown spawn failure. The snapshot TTL cache and clock are
outside the embedding (the forced-probe path). -/
def getHealth (versionResult loginResult : Except String ProcessResult) : HealthSnapshot :=
  match versionResult with
  | .error msg => ⟨false, false, none, false, some ("Failed to run codex: " ++ msg)⟩
  | .ok vr =>
    let codexInstalled := vr.code = 0
    let codexVersion : Option String :=
      if vr.code = 0 then some (truthyOr (sanitizeOutput vr.stdout) (sanitizeOutput vr.stderr))
      else none
    let (loggedIn, loginMessage) :=
      match loginResult with
      | .error msg => (false, some ("Failed to check login status: " ++ msg))
      | .ok lr =>
        let combined := sanitizeOutput (lr.stdout ++ "\n" ++ lr.stderr)
        (loggedInTest combined, some (truthyOr combined "No login status returned"))
    ⟨codexInstalled ∧ loggedIn, codexInstalled, codexVersion, loggedIn, loginMessage⟩

/-- `TRANSLATION_MODES` (server.mjs:17). -/
def TRANSLATION_MODES : List String := ["bilingual", "translation-only"]

/-- `TRANSLATION_TONES` (server.mjs:18). -/
def TRANSLATION_TONES : List String := ["natural", "faithful", "concise"]

/-- Floor of a decimal number literal, modelling `Math.floor` applied to a
`JSON.parse` number. Binary floating-point rounding of the literal is out
of scope of the embedding; no claim depends on it. -/
def jsFloorLit (raw : String) : Int :=
  let (sign, cs1) : Int × List Char :=
    match raw.data with
    | '-' :: r => (-1, r)
    | r => (1, r)
  let (intDs, r1) := digitSpan cs1
  let (fracDs, r2) :=
    match r1 with
    | '.' :: r => digitSpan r
    | _ => ([], r1)
  let expVal : Int :=
    match r2 with
    | e :: r =>
      if e = 'e' ∨ e = 'E' then
        match r with
        | '-' :: ds => -(((digitSpan ds).1.foldl (fun a c => a * 10 + (c.toNat - 48)) 0 : Nat) : Int)
        | '+' :: ds => (((digitSpan ds).1.foldl (fun a c => a * 10 + (c.toNat - 48)) 0 : Nat) : Int)
        | ds => (((digitSpan ds).1.foldl (fun a c => a * 10 + (c.toNat - 48)) 0 : Nat) : Int)
      else 0
    | [] => 0
  let mantissa : Int :=
    sign * (((intDs ++ fracDs).foldl (fun a c => a * 10 + (c.toNat - 48)) 0 : Nat) : Int)
  let netExp : Int := expVal - (fracDs.length : Int)
  if 0 ≤ netExp then mantissa * (10 : Int) ^ netExp.toNat
  else Int.fdiv mantissa ((10 : Int) ^ (-netExp).toNat)

/-- Embedding of `clampNumber` (server.mjs:30-35) on a parsed-JSON field:
non-numbers fall back; numbers are floored then clamped into `[lo, hi]`. -/
def clampNumber (value : Option Json) (lo hi fallback : Int) : Int :=
  match value with
  | some (.num raw) => Min.min hi (Max.max lo (jsFloorLit raw))
  | _ => fallback

/-- The clamped `maxCharsPerItem` a request body resolves to
(server.mjs:613). -/
def resolvedMaxChars (body : Json) : Nat :=
  (clampNumber (body.getField "maxCharsPerItem") 100 5000 1200).toNat

/-- The normalized items a request body resolves to (server.mjs:615). -/
def resolvedItems (body : Json) : List Item :=
  normalizeItems ((body.getField "items").getD .null) (resolvedMaxChars body)

/-- Embedding of `handleTranslate` (server.mjs:602-657) up to transport:
`body` is the parsed JSON request body, `health` the snapshot `getHealth`
returns for this request (the Health Monitor's own probe subprocesses are
not translation invocations), `c` the module cache, `oracle` the codex
outcomes. Returns the response or thrown error, paired with the number of
codex translation invocations issued while handling the request. -/
def handleTranslate (body : Json) (health : HealthSnapshot) (c : CacheMap)
    (oracle : Nat → CodexRaw) : Except HttpError BatchOutcome × Nat :=
  let sourceLang := match body.getField "sourceLang" with | some (.str s) => s | _ => "auto"
  let targetLang := match body.getField "targetLang" with | some (.str s) => s | _ => "zh-CN"
  let model :=
    match body.getField "model" with
    | some (.str s) => if jsTrim s ≠ "" then jsTrim s else ""
    | _ => ""
  let mode :=
    match body.getField "mode" with
    | some (.str s) => if s ∈ TRANSLATION_MODES then s else "bilingual"
    | _ => "bilingual"
  let tone :=
    match body.getField "tone" with
    | some (.str s) => if s ∈ TRANSLATION_TONES then s else "natural"
    | _ => "natural"
  let batchSize := (clampNumber (body.getField "batchSize") 1 20 6).toNat
  let items := resolvedItems body
  if items.length = 0 then (.error ⟨400, "No translatable items were provided"⟩, 0)
  else if ¬ health.codexInstalled then
    (.error ⟨503, "codex CLI is not available. Install Codex CLI first."⟩, 0)
  else if ¬ health.loggedIn then
    (.error
      ⟨503, "OpenAI auth is not ready. Run `codex login` in terminal and complete ChatGPT sign-in."⟩,
      0)
  else
    match translateBatch c ⟨sourceLang, targetLang, model, mode, tone, batchSize⟩ items oracle with
    | .error (e, n) => (.error e, n)
    | .ok out => (.ok out, out.invocations)

/-! ### Helper lemmas -/

theorem normItemsGo_text_le (l : List Json) (i maxChars : Nat) :
    ∀ it ∈ normItemsGo l i maxChars, it.text.length ≤ maxChars + 3 := by
  induction l generalizing i with
  | nil => intro it h; simp [normItemsGo] at h
  | cons current rest ih =>
    intro it h
    simp only [normItemsGo] at h
    split at h
    · split at h
      · exact ih (i + 1) it h
      · rcases List.mem_cons.mp h with h | h
        · subst h
          dsimp only
          split
          · rename_i hlen
            rw [String.length_append]
            have h1 : ((⟨(normItemTextOf current).data.take maxChars⟩ : String)).length
                = ((normItemTextOf current).data.take maxChars).length := rfl
            have h2 : ("..." : String).length = 3 := rfl
            rw [h1, h2, List.length_take]
            omega
          · rename_i hlen
            omega
        · exact ih (i + 1) it h
    · exact ih (i + 1) it h

/-! ### C5 -/

/-- Concrete raw item list for C5: one 101-character text. -/
def c5RawItems : Json :=
  .arr [.obj [("id", .str "p1"), ("text", .str ⟨List.replicate 101 'x'⟩)]]

/-- C5 counterexample: with bound 100, a 101-character text normalizes to
103 characters (the source slices to the bound and then appends `...`), so
"length at most maxCharsPerItem" fails. -/
theorem claim_C5_counterexample :
    ¬ ∀ it ∈ normalizeItems c5RawItems 100, it.text.length ≤ 100 := by decide

/-- C5 (amended): after normalization every item text has length at most
`maxCharsPerItem + 3`: texts within the bound are kept verbatim, longer
texts are clipped to exactly the bound plus the 3-character `...`
truncation marker. -/
theorem claim_C5 (rawItems : Json) (maxCharsPerItem : Nat) :
    ∀ it ∈ normalizeItems rawItems maxCharsPerItem, it.text.length ≤ maxCharsPerItem + 3 := by
  intro it h
  cases rawItems with
  | arr l => exact normItemsGo_text_le l 0 maxCharsPerItem it h
  | null => simp [normalizeItems] at h
  | bool b => simp [normalizeItems] at h
  | num raw => simp [normalizeItems] at h
  | str s => simp [normalizeItems] at h
  | obj fields => simp [normalizeItems] at h

/-- C5 witness: the amended bound evaluated on `c5RawItems` at bound 100. -/
theorem claim_C5_witness :
    (normalizeItems c5RawItems 100).length = 1 ∧
      ∀ it ∈ normalizeItems c5RawItems 100, it.text.length ≤ 103 :=
  ⟨by decide, fun it h => claim_C5 c5RawItems 100 it h⟩

/-! ### C10 -/

/-- C10: empty or whitespace-only codex output always raises the
"Codex returned empty output" extraction error, for every batch — in
particular also for single-item batches, where the plain-text fallback
never applies. -/
theorem claim_C10 (rawOutput : String) (batchItems : List Item)
    (h : jsTrim rawOutput = "") :
    parseTranslationOutput rawOutput batchItems = .error "Codex returned empty output" := by
  simp [parseTranslationOutput, h]

/-- C10 witness: whitespace-only output on a single-item batch. -/
theorem claim_C10_witness :
    jsTrim " \n\t " = "" ∧
      parseTranslationOutput " \n\t " [⟨"p1", "source"⟩] =
        .error "Codex returned empty output" :=
  ⟨by decide, claim_C10 " \n\t " [⟨"p1", "source"⟩] (by decide)⟩

/-! ### C8 -/

/-- C8: for a single-item batch, when no structured recovery path yields a
row (`structuredRows` is empty) and the trimmed output is non-empty, the
output itself — trimmed, with one leading/trailing double quote stripped,
trimmed again — becomes that item's translation instead of an error. -/
theorem claim_C8 (rawOutput : String) (item : Item)
    (hne : jsTrim rawOutput ≠ "")
    (hnone : structuredRows (jsTrim rawOutput) [item] = []) :
    parseTranslationOutput rawOutput [item] =
      .ok [⟨item.id, jsTrim (stripEdgeQuotes (jsTrim rawOutput))⟩] := by
  simp [parseTranslationOutput, hne, hnone]

/-- C8 witness: plain unstructured text (here additionally wrapped in
quotes, which get stripped) becomes the single item's translation. -/
theorem claim_C8_witness :
    parseTranslationOutput "  \"Salut tout le monde\"  " [⟨"p1", "Hello"⟩] =
      .ok [⟨"p1", "Salut tout le monde"⟩] :=
  claim_C8 "  \"Salut tout le monde\"  " ⟨"p1", "Hello"⟩ (by decide) (by decide)

/-! ### Decimal representation: `Nat.repr` is injective -/

/-- Decimal digits of `n`, most significant first. -/
def decDigits (n : Nat) : List Char :=
  if _h : n < 10 then [Nat.digitChar n]
  else decDigits (n / 10) ++ [Nat.digitChar (n % 10)]
decreasing_by exact Nat.div_lt_self (by omega) (by omega)

theorem toDigitsCore_eq_decDigits :
    ∀ (f n : Nat) (ds : List Char), n < f → Nat.toDigitsCore 10 f n ds = decDigits n ++ ds := by
  intro f
  induction f with
  | zero => intro n ds h; omega
  | succ f ih =>
    intro n ds h
    by_cases h10 : n / 10 = 0
    · have hn : n < 10 := by omega
      have hmod : n % 10 = n := Nat.mod_eq_of_lt hn
      simp only [Nat.toDigitsCore, h10, if_true, hmod]
      rw [decDigits, dif_pos hn]
      rfl
    · have hge : 10 ≤ n := by
        by_contra hc
        exact h10 (Nat.div_eq_of_lt (by omega))
      have hdiv : n / 10 < f := by
        have := Nat.div_lt_self (show 0 < n by omega) (show 1 < 10 by omega)
        omega
      simp only [Nat.toDigitsCore, h10, if_false]
      rw [show decDigits n = decDigits (n / 10) ++ [Nat.digitChar (n % 10)] from by
        rw [decDigits, dif_neg (by omega : ¬ n < 10)]]
      rw [ih (n / 10) _ hdiv, List.append_assoc]
      rfl

theorem repr_eq_decDigits (n : Nat) : Nat.repr n = ⟨decDigits n⟩ := by
  show (Nat.toDigits 10 n).asString = _
  unfold Nat.toDigits
  rw [toDigitsCore_eq_decDigits (n + 1) n [] (by omega)]
  simp [List.asString]

/-- Value of a most-significant-first decimal digit list. -/
def decVal (ds : List Char) : Nat := ds.foldl (fun a c => a * 10 + (c.toNat - 48)) 0

theorem decVal_append_digit (a : List Char) (c : Char) :
    decVal (a ++ [c]) = decVal a * 10 + (c.toNat - 48) := by
  simp [decVal, List.foldl_append]

theorem digitChar_toNat (d : Nat) (h : d < 10) : (Nat.digitChar d).toNat - 48 = d := by
  interval_cases d <;> rfl

theorem decVal_decDigits (n : Nat) : decVal (decDigits n) = n := by
  induction n using Nat.strong_induction_on with
  | _ n ih =>
    by_cases h : n < 10
    · rw [decDigits, dif_pos h]
      show 0 * 10 + ((Nat.digitChar n).toNat - 48) = n
      rw [digitChar_toNat n h]
      omega
    · rw [decDigits, dif_neg h, decVal_append_digit,
        ih (n / 10) (Nat.div_lt_self (by omega) (by omega)),
        digitChar_toNat (n % 10) (Nat.mod_lt n (by omega))]
      omega

theorem reprInjective : Function.Injective Nat.repr := by
  intro m n h
  rw [repr_eq_decDigits, repr_eq_decDigits] at h
  have hd : decDigits m = decDigits n := congrArg String.data h
  have hv := congrArg decVal hd
  rwa [decVal_decDigits, decVal_decDigits] at hv

/-! ### C6 -/

/-- The generated positional id `item-`(index+1). -/
def genId (index : Nat) : String := "item-" ++ Nat.repr (index + 1)

theorem genId_injective : Function.Injective genId := by
  intro a b h
  have hd : "item-".data ++ (Nat.repr (a + 1)).data
      = "item-".data ++ (Nat.repr (b + 1)).data := by
    have := congrArg String.data h
    simpa [genId] using this
  have hr : (Nat.repr (a + 1)).data = (Nat.repr (b + 1)).data :=
    List.append_cancel_left hd
  have : Nat.repr (a + 1) = Nat.repr (b + 1) := by
    cases he : Nat.repr (a + 1)
    cases he2 : Nat.repr (b + 1)
    simp_all
  have := reprInjective this
  omega

/-- The caller-supplied id kept by `normalizeItems`, when present: the
trimmed `id` string field, if non-empty. -/
def suppliedId (current : Json) : Option String :=
  match current.getField "id" with
  | some (.str s) => if (jsTrim s).length > 0 then some (jsTrim s) else none
  | _ => none

theorem normItemIdOf_eq (current : Json) (i : Nat) :
    normItemIdOf current i = (suppliedId current).getD (genId i) := by
  unfold normItemIdOf suppliedId genId
  cases h : current.getField "id" with
  | none => rfl
  | some j =>
    cases j with
    | str s =>
      by_cases hs : (jsTrim s).length > 0
      · simp [hs]
      · simp [hs]
    | null => rfl
    | bool b => rfl
    | num raw => rfl
    | arr l => rfl
    | obj fields => rfl

theorem startsWithChars_append (p r : List Char) : startsWithChars p (p ++ r) = true := by
  induction p with
  | nil => rfl
  | cons c cs ih => simp [startsWithChars, ih]

theorem genId_startsWith (i : Nat) : startsWithChars "item-".data (genId i).data = true := by
  have hd : (genId i).data = "item-".data ++ (Nat.repr (i + 1)).data := by simp [genId]
  rw [hd]
  exact startsWithChars_append _ _

theorem mem_filterMap_suppliedId_tail {current : Json} {rest : List Json} {y : String}
    (hy : y ∈ rest.filterMap suppliedId) :
    y ∈ (current :: rest).filterMap suppliedId := by
  rw [List.filterMap_cons]
  cases h : suppliedId current
  · exact hy
  · exact List.mem_cons_of_mem _ hy

theorem mem_normItemsGo_ids :
    ∀ (l : List Json) (i m : Nat) (x : String),
      x ∈ (normItemsGo l i m).map (fun it => it.id) →
      x ∈ l.filterMap suppliedId ∨ ∃ j, i ≤ j ∧ x = genId j := by
  intro l
  induction l with
  | nil => intro i m x hx; simp [normItemsGo] at hx
  | cons current rest ih =>
    intro i m x hx
    have hrec : x ∈ (normItemsGo rest (i + 1) m).map (fun it => it.id) →
        x ∈ (current :: rest).filterMap suppliedId ∨ ∃ j, i ≤ j ∧ x = genId j := by
      intro hx2
      rcases ih (i + 1) m x hx2 with h | ⟨j, hj, e⟩
      · exact Or.inl (mem_filterMap_suppliedId_tail h)
      · exact Or.inr ⟨j, by omega, e⟩
    simp only [normItemsGo] at hx
    split at hx
    · split at hx
      · exact hrec hx
      · rcases List.mem_map.mp hx with ⟨it, hit, hid⟩
        rcases List.mem_cons.mp hit with h | h
        · subst h
          simp only at hid
          rw [normItemIdOf_eq] at hid
          cases hs : suppliedId current with
          | none =>
            right
            exact ⟨i, le_refl i, by rw [← hid, hs]; rfl⟩
          | some s =>
            left
            rw [List.filterMap_cons, hs]
            have : x = s := by rw [← hid, hs]; rfl
            rw [this]
            exact List.mem_cons_self _ _
        · exact hrec (List.mem_map.mpr ⟨it, h, hid⟩)
    · exact hrec hx

theorem normItemsGo_ids_nodup :
    ∀ (l : List Json) (i m : Nat),
      (l.filterMap suppliedId).Nodup →
      (∀ s ∈ l.filterMap suppliedId, startsWithChars "item-".data s.data = false) →
      ((normItemsGo l i m).map (fun it => it.id)).Nodup := by
  intro l
  induction l with
  | nil => intro i m _ _; simp [normItemsGo]
  | cons current rest ih =>
    intro i m hnd hpre
    have hnd' : (rest.filterMap suppliedId).Nodup := by
      rw [List.filterMap_cons] at hnd
      cases h : suppliedId current <;> rw [h] at hnd
      · exact hnd
      · exact hnd.of_cons
    have hpre' : ∀ s ∈ rest.filterMap suppliedId,
        startsWithChars "item-".data s.data = false := by
      intro s hs
      exact hpre s (mem_filterMap_suppliedId_tail hs)
    simp only [normItemsGo]
    split
    · split
      · exact ih (i + 1) m hnd' hpre'
      · rw [List.map_cons, List.nodup_cons]
        refine ⟨?_, ih (i + 1) m hnd' hpre'⟩
        intro hmem
        simp only at hmem
        have hxid : normItemIdOf current i = (suppliedId current).getD (genId i) :=
          normItemIdOf_eq current i
        rcases mem_normItemsGo_ids rest (i + 1) m _ hmem with hin | ⟨j, hj, e⟩
        · cases hs : suppliedId current with
          | none =>
            rw [hxid, hs] at hin
            simp only [Option.getD_none] at hin
            have h1 := hpre _ (mem_filterMap_suppliedId_tail hin)
            have h2 := genId_startsWith i
            rw [h1] at h2
            exact Bool.false_ne_true h2
          | some s =>
            rw [hxid, hs] at hin
            simp only [Option.getD_some] at hin
            rw [List.filterMap_cons, hs] at hnd
            exact (List.nodup_cons.mp hnd).1 hin
        · cases hs : suppliedId current with
          | none =>
            rw [hxid, hs] at e
            simp only [Option.getD_none] at e
            have : i = j := genId_injective e
            omega
          | some s =>
            rw [hxid, hs] at e
            simp only [Option.getD_some] at e
            have h1 : startsWithChars "item-".data s.data = false := by
              apply hpre
              rw [List.filterMap_cons, hs]
              exact List.mem_cons_self _ _
            have h2 := genId_startsWith j
            rw [← e] at h2
            rw [h1] at h2
            exact Bool.false_ne_true h2
    · exact ih (i + 1) m hnd' hpre'

/-- Concrete raw item list for the C6 counterexample: two items sharing the
caller-supplied id `"a"`. -/
def c6RawItems : Json :=
  .arr [.obj [("id", .str "a"), ("text", .str "one")],
        .obj [("id", .str "a"), ("text", .str "two")]]

/-- C6 counterexample: `normalizeItems` keeps duplicate caller-supplied ids,
so normalized ids are not always unique. -/
theorem claim_C6_counterexample :
    ¬ ((normalizeItems c6RawItems 1200).map (fun it => it.id)).Nodup := by decide

/-- C6 (amended): items with a caller-supplied non-empty id keep it
(trimmed); items without one receive the generated positional id
`item-`(index+1). Normalization itself does not enforce uniqueness — an
input with duplicate caller-supplied ids keeps the duplicates — but the
normalized ids are unique whenever the caller-supplied (trimmed) ids are
pairwise distinct and none of them starts with `item-`. -/
theorem claim_C6 (l : List Json) (maxCharsPerItem : Nat)
    (hnodup : (l.filterMap suppliedId).Nodup)
    (hpre : ∀ s ∈ l.filterMap suppliedId, startsWithChars "item-".data s.data = false) :
    ((normalizeItems (.arr l) maxCharsPerItem).map (fun it => it.id)).Nodup :=
  normItemsGo_ids_nodup l 0 maxCharsPerItem hnodup hpre

/-- Concrete raw item list for the C6 witness: one named and one unnamed
item. -/
def c6GoodItems : List Json :=
  [.obj [("id", .str "a"), ("text", .str "one")],
   .obj [("text", .str "two")]]

/-- C6 witness: the amended uniqueness applied to `c6GoodItems`. -/
theorem claim_C6_witness :
    ((normalizeItems (.arr c6GoodItems) 1200).map (fun it => it.id)).Nodup :=
  claim_C6 c6GoodItems 1200 (by decide) (by decide)

/-! ### Cache lemmas and C3 -/

theorem mapGet_eq_none_iff (m : CacheMap) (k : String) :
    mapGet m k = none ↔ ∀ p ∈ m, p.1 ≠ k := by
  simp [mapGet, List.find?_eq_none]

theorem mapHas_eq_false_iff (m : CacheMap) (k : String) :
    mapHas m k = false ↔ mapGet m k = none := by
  unfold mapHas
  cases h : mapGet m k <;> simp

theorem mapSet_not_mem (m : CacheMap) (k v : String) (h : ∀ p ∈ m, p.1 ≠ k) :
    mapSet m k v = m ++ [(k, v)] := by
  have hh : mapHas m k = false := (mapHas_eq_false_iff m k).mpr ((mapGet_eq_none_iff m k).mpr h)
  simp [mapSet, hh]

theorem mapDelete_not_mem (m : CacheMap) (k : String) (h : ∀ p ∈ m, p.1 ≠ k) :
    mapDelete m k = m := by
  unfold mapDelete
  rw [List.filter_eq_self]
  intro p hp
  simpa [bne] using h p hp

theorem mapDelete_cons_self (p : String × String) (m : CacheMap) :
    mapDelete (p :: m) p.1 = mapDelete m p.1 := by
  simp [mapDelete]

theorem setCacheValue_small (m : CacheMap) (k v : String) (h : m.length < MAX_CACHE_SIZE) :
    setCacheValue m k v = mapSet m k v := by
  have : ¬ m.length ≥ MAX_CACHE_SIZE := by omega
  simp [setCacheValue, this]

theorem mapSet_keys_ne (m : CacheMap) (k v e : String)
    (hm : ∀ p ∈ m, p.1 ≠ e) (hk : k ≠ e) : ∀ p ∈ mapSet m k v, p.1 ≠ e := by
  intro p hp
  unfold mapSet at hp
  split at hp
  · rcases List.mem_map.mp hp with ⟨q, hq, he⟩
    by_cases hqk : q.1 == k
    · rw [if_pos hqk] at he
      rw [← he]
      exact hk
    · rw [if_neg hqk] at he
      rw [← he]
      exact hm q hq
  · rcases List.mem_append.mp hp with h | h
    · exact hm p h
    · rcases List.mem_singleton.mp h with rfl
      exact hk

theorem mapSet_length_le (m : CacheMap) (k v : String) :
    (mapSet m k v).length ≤ m.length + 1 := by
  unfold mapSet
  split
  · simp
  · simp

theorem setCacheValue_full (p : String × String) (m : CacheMap) (k v : String)
    (hfull : (p :: m).length ≥ MAX_CACHE_SIZE) (hp : p.1 ≠ "") :
    setCacheValue (p :: m) k v = mapSet (mapDelete (p :: m) p.1) k v := by
  unfold setCacheValue
  rw [if_pos hfull]
  simp [hp]

/-- C3 part 1: `setCacheValue` preserves "at most `MAX_CACHE_SIZE` entries,
all keys non-empty" (cache keys produced by `cacheKey` are never empty, and
JS truthiness only evicts a non-empty first key). -/
theorem setCacheValue_capacity (m : CacheMap) (k v : String)
    (hlen : m.length ≤ MAX_CACHE_SIZE) (hne : ∀ p ∈ m, p.1 ≠ "") (hk : k ≠ "") :
    (setCacheValue m k v).length ≤ MAX_CACHE_SIZE ∧
      ∀ p ∈ setCacheValue m k v, p.1 ≠ "" := by
  by_cases hfull : m.length ≥ MAX_CACHE_SIZE
  · cases m with
    | nil => simp [MAX_CACHE_SIZE] at hfull
    | cons p rest =>
      have hp1 : p.1 ≠ "" := hne p (List.mem_cons_self _ _)
      rw [setCacheValue_full p rest k v hfull hp1]
      have hdel_sub : ∀ q ∈ mapDelete (p :: rest) p.1, q ∈ p :: rest := by
        intro q hq
        exact List.mem_of_mem_filter hq
      have hdel_len : (mapDelete (p :: rest) p.1).length ≤ rest.length := by
        rw [mapDelete_cons_self]
        exact List.length_filter_le _ _
      constructor
      · have := mapSet_length_le (mapDelete (p :: rest) p.1) k v
        have hr : (p :: rest).length = rest.length + 1 := by simp
        omega
      · intro q hq
        exact mapSet_keys_ne _ k v "" (fun q hq' => hne q (hdel_sub q hq')) hk q hq
  · rw [setCacheValue_small m k v (by omega)]
    constructor
    · have := mapSet_length_le m k v
      omega
    · exact mapSet_keys_ne m k v "" hne hk

/-- Fold a list of keys into the cache with `setCacheValue`, starting from
empty (value assigned by `f`). -/
def insertAll (f : String → String) (ks : List String) : CacheMap :=
  ks.foldl (fun m k => setCacheValue m k (f k)) []

theorem foldl_setCacheValue_append (f : String → String) :
    ∀ (ks : List String) (c : CacheMap),
      ((c.map Prod.fst) ++ ks).Nodup →
      c.length + ks.length ≤ MAX_CACHE_SIZE →
      ks.foldl (fun m k => setCacheValue m k (f k)) c = c ++ ks.map (fun k => (k, f k)) := by
  intro ks
  induction ks with
  | nil => intro c _ _; simp
  | cons k kt ih =>
    intro c hnd hlen
    have hdisj := (List.nodup_append.mp hnd).2.2
    have hknotin : ∀ p ∈ c, p.1 ≠ k := by
      intro p hp hpk
      exact hdisj (List.mem_map.mpr ⟨p, hp, rfl⟩) (hpk ▸ List.mem_cons_self k kt)
    have hclen : c.length < MAX_CACHE_SIZE := by
      simp at hlen
      omega
    have h1 : setCacheValue c k (f k) = c ++ [(k, f k)] := by
      rw [setCacheValue_small c _ _ hclen, mapSet_not_mem c k _ hknotin]
    rw [List.foldl_cons, h1, ih (c ++ [(k, f k)])
      (by simpa [List.map_append, List.append_assoc] using hnd)
      (by simp at hlen ⊢; omega)]
    simp

theorem mapGet_map_self (f : String → String) :
    ∀ (xs : List String) (k : String), k ∈ xs →
      mapGet (xs.map (fun x => (x, f x))) k = some (f k) := by
  intro xs
  induction xs with
  | nil => intro k hk; simp at hk
  | cons x xt ih =>
    intro k hk
    by_cases hxk : x = k
    · subst hxk
      simp [mapGet, List.find?_cons]
    · rcases List.mem_cons.mp hk with h | h
      · exact absurd h.symm hxk
      · have := ih k h
        simpa [mapGet, List.find?_cons, bne, Ne.symm hxk, hxk] using this

/-- C3 part 2: filling the empty cache with `MAX_CACHE_SIZE` distinct
non-empty keys and then inserting one more distinct key evicts exactly the
first-inserted key: it is no longer retrievable, every other key still is,
and the cache is back at exactly `MAX_CACHE_SIZE` entries. -/
theorem cache_evicts_first (f : String → String) (k0 klast : String) (krest : List String)
    (hnd : (k0 :: (krest ++ [klast])).Nodup)
    (hne : ∀ k ∈ k0 :: (krest ++ [klast]), k ≠ "")
    (hlen : (k0 :: krest).length = MAX_CACHE_SIZE) :
    mapGet (insertAll f (k0 :: (krest ++ [klast]))) k0 = none ∧
      (∀ k ∈ krest ++ [klast], mapGet (insertAll f (k0 :: (krest ++ [klast]))) k = some (f k)) ∧
      (insertAll f (k0 :: (krest ++ [klast]))).length = MAX_CACHE_SIZE := by
  have hk0_notin : k0 ∉ krest ++ [klast] := (List.nodup_cons.mp hnd).1
  have hnd_tail : (krest ++ [klast]).Nodup := (List.nodup_cons.mp hnd).2
  have hklast_notin : klast ∉ krest := by
    intro h
    rcases List.nodup_append.mp hnd_tail with ⟨_, _, hdisj⟩
    exact hdisj h (List.mem_singleton.mpr rfl)
  have hnd_front : (k0 :: krest).Nodup := by
    have hsub : (k0 :: krest).Sublist (k0 :: (krest ++ [klast])) :=
      List.Sublist.cons₂ k0 (List.sublist_append_left krest [klast])
    exact hnd.sublist hsub
  have hsplit : insertAll f (k0 :: (krest ++ [klast]))
      = setCacheValue ((k0 :: krest).foldl (fun m k => setCacheValue m k (f k)) []) klast
          (f klast) := by
    unfold insertAll
    rw [show (k0 :: (krest ++ [klast])) = (k0 :: krest) ++ [klast] from rfl,
      List.foldl_append]
    rfl
  have hfill : (k0 :: krest).foldl (fun m k => setCacheValue m k (f k)) []
      = (k0 :: krest).map (fun k => (k, f k)) := by
    have := foldl_setCacheValue_append f (k0 :: krest) []
    simp only [List.map_nil, List.nil_append, List.length_nil] at this
    exact this hnd_front (by omega)
  have hmlen : ((k0 :: krest).map (fun k => (k, f k))).length = MAX_CACHE_SIZE := by
    simpa using hlen
  have hk0ne : k0 ≠ "" := hne k0 (List.mem_cons_self _ _)
  have hkrest_ne_k0 : ∀ p ∈ krest.map (fun k => (k, f k)), p.1 ≠ k0 := by
    intro p hp
    rcases List.mem_map.mp hp with ⟨x, hx, rfl⟩
    intro hxk0
    exact hk0_notin (hxk0 ▸ List.mem_append_left [klast] hx)
  have hklast_keys : ∀ p ∈ krest.map (fun k => (k, f k)), p.1 ≠ klast := by
    intro p hp
    rcases List.mem_map.mp hp with ⟨x, hx, rfl⟩
    intro hxk
    exact hklast_notin (hxk ▸ hx)
  have hstep : setCacheValue ((k0 :: krest).map (fun k => (k, f k))) klast (f klast)
      = krest.map (fun k => (k, f k)) ++ [(klast, f klast)] := by
    rw [List.map_cons]
    rw [setCacheValue_full (k0, f k0) (krest.map (fun k => (k, f k))) klast (f klast)
      (by simp at hmlen ⊢; omega) hk0ne]
    rw [show mapDelete ((k0, f k0) :: krest.map (fun k => (k, f k))) (k0, f k0).1
        = krest.map (fun k => (k, f k)) from by
      rw [mapDelete_cons_self, mapDelete_not_mem _ _ hkrest_ne_k0]]
    exact mapSet_not_mem _ klast (f klast) hklast_keys
  rw [hsplit, hfill, hstep]
  refine ⟨?_, ?_, ?_⟩
  · rw [mapGet_eq_none_iff]
    intro p hp
    rcases List.mem_append.mp hp with h | h
    · exact hkrest_ne_k0 p h
    · rcases List.mem_singleton.mp h with rfl
      intro hk
      exact hk0_notin (hk ▸ List.mem_append_right krest (List.mem_singleton.mpr rfl))
  · intro k hk
    rcases List.mem_append.mp hk with h | h
    · have hfind : mapGet (krest.map (fun k => (k, f k))) k = some (f k) :=
        mapGet_map_self f krest k h
      unfold mapGet at hfind ⊢
      rw [List.find?_append]
      cases hfk : (krest.map (fun k => (k, f k))).find? (fun p => p.1 == k) with
      | none => rw [hfk] at hfind; simp at hfind
      | some q => rw [hfk] at hfind; simpa [hfk] using hfind
    · rcases List.mem_singleton.mp h with rfl
      have hnone : mapGet (krest.map (fun k => (k, f k))) k = none := by
        rw [mapGet_eq_none_iff]
        intro p hp
        rcases List.mem_map.mp hp with ⟨x, hx, rfl⟩
        intro hxk
        exact hklast_notin (hxk ▸ hx)
      unfold mapGet at hnone ⊢
      rw [List.find?_append]
      have : (krest.map (fun k2 => (k2, f k2))).find? (fun p => p.1 == k) = none := by
        cases hfk : (krest.map (fun k2 => (k2, f k2))).find? (fun p => p.1 == k) with
        | none => rfl
        | some q => rw [hfk] at hnone; simp at hnone
      rw [this]
      simp [List.find?_cons]
  · simp at hlen ⊢
    omega

/-- C3: the translation cache never exceeds its fixed capacity of 3000
entries (`MAX_CACHE_SIZE`): an insert on a cache within capacity stays
within capacity; and inserting capacity + 1 distinct keys into an empty
cache evicts exactly the first-inserted key — it is no longer retrievable
afterwards, while every later key still is and the cache is back at
exactly capacity. Eviction is insertion-order (the single oldest-inserted
entry), not recency-based. Keys are assumed non-empty, as every key built
by `cacheKey` is (JS truthiness would skip evicting an empty first key). -/
theorem claim_C3 :
    (∀ (m : CacheMap) (k v : String),
        m.length ≤ MAX_CACHE_SIZE → (∀ p ∈ m, p.1 ≠ "") → k ≠ "" →
        (setCacheValue m k v).length ≤ MAX_CACHE_SIZE ∧
          ∀ p ∈ setCacheValue m k v, p.1 ≠ "") ∧
    (∀ (f : String → String) (k0 klast : String) (krest : List String),
        (k0 :: (krest ++ [klast])).Nodup →
        (∀ k ∈ k0 :: (krest ++ [klast]), k ≠ "") →
        (k0 :: krest).length = MAX_CACHE_SIZE →
        mapGet (insertAll f (k0 :: (krest ++ [klast]))) k0 = none ∧
          (∀ k ∈ krest ++ [klast],
            mapGet (insertAll f (k0 :: (krest ++ [klast]))) k = some (f k)) ∧
          (insertAll f (k0 :: (krest ++ [klast]))).length = MAX_CACHE_SIZE) :=
  ⟨setCacheValue_capacity, cache_evicts_first⟩

/-- Distinct non-empty keys for the C3 witness: `n+1` repetitions of `a`. -/
def unaryKey (n : Nat) : String := ⟨List.replicate (n + 1) 'a'⟩

theorem unaryKey_injective : Function.Injective unaryKey := by
  intro a b h
  have hd := congrArg (fun s => s.data.length) h
  simp [unaryKey] at hd
  omega

theorem unaryKey_ne_empty (n : Nat) : unaryKey n ≠ "" := by
  intro h
  have hd := congrArg String.data h
  simp [unaryKey] at hd

theorem range_unary_decomp :
    (List.range (MAX_CACHE_SIZE + 1)).map unaryKey
      = unaryKey 0 ::
          (((List.range (MAX_CACHE_SIZE - 1)).map (fun n => unaryKey (n + 1)))
            ++ [unaryKey MAX_CACHE_SIZE]) := by
  have h1 : MAX_CACHE_SIZE + 1 = (MAX_CACHE_SIZE - 1 + 1) + 1 := by simp [MAX_CACHE_SIZE]
  rw [h1, List.range_succ_eq_map, List.range_succ, List.map_cons, List.map_map,
    List.map_append]
  simp [Function.comp_def, MAX_CACHE_SIZE]

/-- C3 witness: the capacity invariant applied to the empty cache, and the
eviction property applied to 3001 distinct unary keys. -/
theorem claim_C3_witness :
    ((setCacheValue [] "k" "v").length ≤ MAX_CACHE_SIZE ∧
        ∀ p ∈ setCacheValue [] "k" "v", p.1 ≠ "") ∧
      mapGet (insertAll (fun k => k) ((List.range (MAX_CACHE_SIZE + 1)).map unaryKey))
        (unaryKey 0) = none := by
  constructor
  · exact claim_C3.1 [] "k" "v" (by decide) (by intro p hp; simp at hp) (by decide)
  · have hnd : (unaryKey 0 ::
        (((List.range (MAX_CACHE_SIZE - 1)).map (fun n => unaryKey (n + 1)))
          ++ [unaryKey MAX_CACHE_SIZE])).Nodup := by
      rw [← range_unary_decomp]
      exact List.Nodup.map unaryKey_injective (List.nodup_range _)
    have hne : ∀ k ∈ unaryKey 0 ::
        (((List.range (MAX_CACHE_SIZE - 1)).map (fun n => unaryKey (n + 1)))
          ++ [unaryKey MAX_CACHE_SIZE]), k ≠ "" := by
      intro k hk
      rw [← range_unary_decomp] at hk
      rcases List.mem_map.mp hk with ⟨n, _, rfl⟩
      exact unaryKey_ne_empty n
    have hlen : (unaryKey 0 ::
        ((List.range (MAX_CACHE_SIZE - 1)).map (fun n => unaryKey (n + 1)))).length
          = MAX_CACHE_SIZE := by
      simp [MAX_CACHE_SIZE]
    rw [range_unary_decomp]
    exact (claim_C3.2 (fun k => k) (unaryKey 0) (unaryKey MAX_CACHE_SIZE)
      ((List.range (MAX_CACHE_SIZE - 1)).map (fun n => unaryKey (n + 1)))
      hnd hne hlen).1

/-! ### C4 -/

/-- C4: when the Health Monitor snapshot says the tool is not installed or
not logged in, a translate request with valid items fails immediately with
the matching distinct 503 service-unavailable error and zero codex
translation invocations occur — `translateBatch`, and hence
`runCodexTranslation`, is never reached. (The Health Monitor's own
`codex --version`/`codex login status` probes are its separate probe
subprocesses, not translation invocations.) -/
theorem claim_C4 (body : Json) (health : HealthSnapshot) (c : CacheMap)
    (oracle : Nat → CodexRaw)
    (hitems : (resolvedItems body).length ≠ 0)
    (hbad : health.codexInstalled = false ∨ health.loggedIn = false) :
    (handleTranslate body health c oracle).2 = 0 ∧
      ((health.codexInstalled = false ∧
          (handleTranslate body health c oracle).1
            = .error ⟨503, "codex CLI is not available. Install Codex CLI first."⟩) ∨
        (health.codexInstalled = true ∧ health.loggedIn = false ∧
          (handleTranslate body health c oracle).1 = .error ⟨503,
            "OpenAI auth is not ready. Run `codex login` in terminal and complete ChatGPT sign-in."⟩)) := by
  by_cases hi : health.codexInstalled
  · have hl : health.loggedIn = false := by
      rcases hbad with h | h
      · rw [h] at hi; exact absurd hi (by simp)
      · exact h
    refine ⟨by simp [handleTranslate, hitems, hi, hl], ?_⟩
    right
    exact ⟨by simpa using hi, hl, by simp [handleTranslate, hitems, hi, hl]⟩
  · have hi' : health.codexInstalled = false := by simpa using hi
    refine ⟨by simp [handleTranslate, hitems, hi'], ?_⟩
    left
    exact ⟨hi', by simp [handleTranslate, hitems, hi']⟩

/-- Request body for the C4 witness: one valid item. -/
def c4Body : Json := .obj [("items", .arr [.obj [("text", .str "Hello")]])]

/-- Health snapshot for the C4 witness, produced by `getHealth` from an
installed codex whose `login status` reports "Not logged in". -/
def c4Health : HealthSnapshot :=
  getHealth (.ok ⟨0, "codex-cli 1.0.0", "", false⟩) (.ok ⟨0, "Not logged in", "", false⟩)

/-- C4 witness: the not-logged-in snapshot yields the 503 auth error and
zero invocations. -/
theorem claim_C4_witness :
    (handleTranslate c4Body c4Health [] (fun _ => default)).2 = 0 ∧
      (handleTranslate c4Body c4Health [] (fun _ => default)).1 = .error ⟨503,
        "OpenAI auth is not ready. Run `codex login` in terminal and complete ChatGPT sign-in."⟩ := by
  have h := claim_C4 c4Body c4Health [] (fun _ => default) (by decide) (Or.inr (by decide))
  refine ⟨h.1, ?_⟩
  rcases h.2 with ⟨hfalse, _⟩ | ⟨_, _, he⟩
  · exact absurd hfalse (by decide)
  · exact he

/-! ### Orchestrator fold lemmas -/

theorem mem_mapSet_cases (m : CacheMap) (k v : String) (q : String × String)
    (hq : q ∈ mapSet m k v) : q ∈ m ∨ q = (k, v) := by
  unfold mapSet at hq
  split at hq
  · rcases List.mem_map.mp hq with ⟨p, hp, he⟩
    by_cases hpk : p.1 == k
    · right; rw [← he, if_pos hpk]
    · left; rw [← he, if_neg hpk]; exact hp
  · rcases List.mem_append.mp hq with h | h
    · left; exact h
    · right; exact List.mem_singleton.mp h

theorem mapGet_mem (m : CacheMap) (k v : String) (h : mapGet m k = some v) :
    (k, v) ∈ m := by
  unfold mapGet at h
  cases hf : m.find? (fun p => p.1 == k) with
  | none => rw [hf] at h; simp at h
  | some q =>
    rw [hf] at h
    simp at h
    have hmem := List.mem_of_find?_eq_some hf
    have hp := List.find?_some hf
    simp at hp
    have : q = (k, v) := by
      cases q with
      | mk q1 q2 => simp at hp h ⊢; exact ⟨hp, h⟩
    rw [← this]
    exact hmem

/-- Values the extractor merged for a batch: the `setCacheValue` calls this
batch performs. -/
def mergeInserts (options : TranslationOptions) (parsedById : CacheMap)
    (batch : List Item) : List (String × String) :=
  batch.filterMap (fun it => (truthyGet parsedById it.id).map (fun t => (cacheKey it options, t)))

/-- Warnings this batch pushes: one per item without a truthy parsed
translation. -/
def mergeWarnings (parsedById : CacheMap) (batch : List Item) : List String :=
  batch.filterMap (fun it =>
    match truthyGet parsedById it.id with
    | none => some (fallbackMsg it)
    | some _ => none)

theorem mergeFold_spec (options : TranslationOptions) (parsedById : CacheMap) :
    ∀ (batch : List Item) (st : TBState),
      (batch.foldl (mergeStep options parsedById) st).cache
          = (mergeInserts options parsedById batch).foldl
              (fun cc q => setCacheValue cc q.1 q.2) st.cache ∧
        (batch.foldl (mergeStep options parsedById) st).insertions
          = st.insertions ++ mergeInserts options parsedById batch ∧
        (batch.foldl (mergeStep options parsedById) st).warnings
          = st.warnings ++ mergeWarnings parsedById batch ∧
        (batch.foldl (mergeStep options parsedById) st).merged
          = st.merged ++ batch.map (fun it => (it, truthyGet parsedById it.id)) ∧
        (batch.foldl (mergeStep options parsedById) st).invocations = st.invocations ∧
        ∀ q ∈ (batch.foldl (mergeStep options parsedById) st).resultById,
          q ∈ st.resultById ∨
            ∃ it ∈ batch, q.1 = it.id ∧
              (q.2 = it.text ∨ truthyGet parsedById it.id = some q.2) := by
  intro batch
  induction batch with
  | nil => intro st; simp [mergeInserts, mergeWarnings]
  | cons item rest ih =>
    intro st
    rw [List.foldl_cons]
    obtain ⟨h1, h2, h3, h4, h5, h6⟩ := ih (mergeStep options parsedById st item)
    cases ht : truthyGet parsedById item.id with
    | none =>
      have hs : mergeStep options parsedById st item =
          { st with
            warnings := st.warnings ++ [fallbackMsg item]
            resultById := mapSet st.resultById item.id item.text
            merged := st.merged ++ [(item, none)] } := by
        simp [mergeStep, ht]
      refine ⟨?_, ?_, ?_, ?_, ?_, ?_⟩
      · rw [h1, hs]
        simp [mergeInserts, List.filterMap_cons, ht]
      · rw [h2, hs]
        simp [mergeInserts, List.filterMap_cons, ht]
      · rw [h3, hs]
        simp [mergeWarnings, List.filterMap_cons, ht]
      · rw [h4, hs]
        simp [ht]
      · rw [h5, hs]
      · intro q hq
        rcases h6 q hq with hin | ⟨it, hit, hqid, hcase⟩
        · rw [hs] at hin
          simp only at hin
          rcases mem_mapSet_cases _ _ _ _ hin with hold | hnew
          · exact Or.inl hold
          · refine Or.inr ⟨item, List.mem_cons_self _ _, ?_, Or.inl ?_⟩
            · rw [hnew]
            · rw [hnew]
        · exact Or.inr ⟨it, List.mem_cons_of_mem _ hit, hqid, hcase⟩
    | some translated =>
      have hs : mergeStep options parsedById st item =
          { st with
            resultById := mapSet st.resultById item.id translated
            cache := setCacheValue st.cache (cacheKey item options) translated
            insertions := st.insertions ++ [(cacheKey item options, translated)]
            merged := st.merged ++ [(item, some translated)] } := by
        simp [mergeStep, ht]
      refine ⟨?_, ?_, ?_, ?_, ?_, ?_⟩
      · rw [h1, hs]
        simp [mergeInserts, List.filterMap_cons, ht]
      · rw [h2, hs]
        simp [mergeInserts, List.filterMap_cons, ht]
      · rw [h3, hs]
        simp [mergeWarnings, List.filterMap_cons, ht]
      · rw [h4, hs]
        simp [ht]
      · rw [h5, hs]
      · intro q hq
        rcases h6 q hq with hin | ⟨it, hit, hqid, hcase⟩
        · rw [hs] at hin
          simp only at hin
          rcases mem_mapSet_cases _ _ _ _ hin with hold | hnew
          · exact Or.inl hold
          · refine Or.inr ⟨item, List.mem_cons_self _ _, ?_, Or.inr ?_⟩
            · rw [hnew]
            · rw [hnew, ht]
        · exact Or.inr ⟨it, List.mem_cons_of_mem _ hit, hqid, hcase⟩

theorem partition_spec (c : CacheMap) (options : TranslationOptions) :
    ∀ (items : List Item) (acc : CacheMap × List Item × Nat),
      (items.foldl (partitionStep c options) acc).2.2
          = acc.2.2 + (items.filter (fun it => mapHas c (cacheKey it options))).length ∧
        (items.foldl (partitionStep c options) acc).2.1
          = acc.2.1 ++ items.filter (fun it => ¬ mapHas c (cacheKey it options)) ∧
        ∀ q ∈ (items.foldl (partitionStep c options) acc).1,
          q ∈ acc.1 ∨ ∃ it ∈ items, q.1 = it.id ∧ mapGet c (cacheKey it options) = some q.2 := by
  intro items
  induction items with
  | nil => intro acc; simp
  | cons item rest ih =>
    intro acc
    rw [List.foldl_cons]
    cases hhit : mapHas c (cacheKey item options) with
    | true =>
      have hget : mapGet c (cacheKey item options)
          = some ((mapGet c (cacheKey item options)).getD "") := by
        unfold mapHas at hhit
        cases hg : mapGet c (cacheKey item options) with
        | none => rw [hg] at hhit; simp at hhit
        | some w => simp
      have hs : partitionStep c options acc item
          = (mapSet acc.1 item.id ((mapGet c (cacheKey item options)).getD ""),
              acc.2.1, acc.2.2 + 1) := by
        simp [partitionStep, hhit]
      obtain ⟨g1, g2, g3⟩ := ih (partitionStep c options acc item)
      refine ⟨?_, ?_, ?_⟩
      · rw [g1, hs]
        simp [List.filter_cons, hhit]
        omega
      · rw [g2, hs]
        simp [List.filter_cons, hhit]
      · intro q hq
        rcases g3 q hq with hin | ⟨it, hit, hid, hv⟩
        · rw [hs] at hin
          simp only at hin
          rcases mem_mapSet_cases _ _ _ _ hin with hold | hnew
          · exact Or.inl hold
          · refine Or.inr ⟨item, List.mem_cons_self _ _, ?_, ?_⟩
            · rw [hnew]
            · rw [hnew]
              exact hget
        · exact Or.inr ⟨it, List.mem_cons_of_mem _ hit, hid, hv⟩
    | false =>
      have hs : partitionStep c options acc item = (acc.1, acc.2.1 ++ [item], acc.2.2) := by
        simp [partitionStep, hhit]
      obtain ⟨g1, g2, g3⟩ := ih (partitionStep c options acc item)
      refine ⟨?_, ?_, ?_⟩
      · rw [g1, hs]
        simp [List.filter_cons, hhit]
      · rw [g2, hs]
        simp [List.filter_cons, hhit]
      · intro q hq
        rcases g3 q hq with hin | ⟨it, hit, hid, hv⟩
        · rw [hs] at hin
          exact Or.inl hin
        · exact Or.inr ⟨it, List.mem_cons_of_mem _ hit, hid, hv⟩

theorem mem_chunkGo :
    ∀ (fuel : Nat) (l : List Item) (k : Nat) (b : List Item),
      b ∈ chunkGo fuel l k → ∀ x ∈ b, x ∈ l := by
  intro fuel
  induction fuel with
  | zero => intro l k b hb; simp [chunkGo] at hb
  | succ fuel ih =>
    intro l k b hb x hx
    cases l with
    | nil => simp [chunkGo] at hb
    | cons a t =>
      simp only [chunkGo] at hb
      rcases List.mem_cons.mp hb with rfl | hb
      · exact List.take_subset _ _ hx
      · exact List.drop_subset _ _ (ih (List.drop k (a :: t)) k b hb x hx)

theorem mem_chunk (pending : List Item) (k : Nat) (b : List Item)
    (hb : b ∈ chunk pending k) : ∀ x ∈ b, x ∈ pending :=
  mem_chunkGo pending.length pending k b hb

/-- The function turning a merged pair back into the cache insertion it
caused, if any. -/
def insertOf (options : TranslationOptions) (p : Item × Option String) :
    Option (String × String) :=
  p.2.map (fun t => (cacheKey p.1 options, t))

theorem procBatch_ok_spec (options : TranslationOptions) (raw : CodexRaw) (batch : List Item)
    (st st2 : TBState) (h : procBatch options raw batch st = .ok st2) :
    ∃ parsedById : CacheMap,
      st2.cache = (mergeInserts options parsedById batch).foldl
          (fun cc q => setCacheValue cc q.1 q.2) st.cache ∧
        st2.insertions = st.insertions ++ mergeInserts options parsedById batch ∧
        st2.warnings = st.warnings ++ mergeWarnings parsedById batch ∧
        st2.merged = st.merged ++ batch.map (fun it => (it, truthyGet parsedById it.id)) ∧
        st2.invocations = st.invocations ∧
        ∀ q ∈ st2.resultById,
          q ∈ st.resultById ∨
            ∃ it ∈ batch, q.1 = it.id ∧
              (q.2 = it.text ∨ truthyGet parsedById it.id = some q.2) := by
  unfold procBatch at h
  split at h
  · exact absurd h (by simp)
  · simp only [ne_eq] at h
    split at h
    · exact absurd h (by simp)
    · split at h
      · exact absurd h (by simp)
      · rename_i parsedRows heq
        refine ⟨parsedRows.foldl (fun m r => mapSet m r.id r.translatedText) [], ?_⟩
        have hst2 : st2 = batch.foldl
            (mergeStep options (parsedRows.foldl (fun m r => mapSet m r.id r.translatedText) []))
            st := by
          have := h
          simp only [Except.ok.injEq] at this
          exact this.symm
        rw [hst2]
        exact mergeFold_spec options _ batch st

/-- The merged-to-insertions relation between instrumented fields. -/
theorem procBatches_invariants (options : TranslationOptions) (oracle : Nat → CodexRaw) :
    ∀ (batches : List (List Item)) (st st' : TBState),
      procBatches options oracle batches st = .ok st' →
      (∃ l, st'.insertions = st.insertions ++ l) ∧
        (st.insertions = st.merged.filterMap (insertOf options) →
          st'.insertions = st'.merged.filterMap (insertOf options)) ∧
        (∀ c0 : CacheMap, st.cache = st.insertions.foldl
              (fun cc q => setCacheValue cc q.1 q.2) c0 →
          st'.cache = st'.insertions.foldl (fun cc q => setCacheValue cc q.1 q.2) c0) ∧
        ((∀ p ∈ st.merged, p.2 = none → fallbackMsg p.1 ∈ st.warnings) →
          (∀ p ∈ st'.merged, p.2 = none → fallbackMsg p.1 ∈ st'.warnings)) := by
  intro batches
  induction batches with
  | nil =>
    intro st st' h
    have : st = st' := by simpa [procBatches] using h
    subst this
    exact ⟨⟨[], by simp⟩, fun h => h, fun c0 h => h, fun h => h⟩
  | cons batch rest ih =>
    intro st st' h
    simp only [procBatches] at h
    split at h
    · exact absurd h (by simp)
    · rename_i st2 heq
      obtain ⟨pb, m1, m2, m3, m4, m5, m6⟩ :=
        procBatch_ok_spec options _ batch { st with invocations := st.invocations + 1 } st2 heq
      obtain ⟨i1, i2, i3, i4⟩ := ih st2 st' h
      refine ⟨?_, ?_, ?_, ?_⟩
      · obtain ⟨l, hl⟩ := i1
        exact ⟨mergeInserts options pb batch ++ l, by
          rw [hl, m2]; simp [List.append_assoc]⟩
      · intro hrel
        apply i2
        rw [m2, m4]
        simp only [List.filterMap_append]
        rw [← hrel]
        congr 1
        rw [List.filterMap_map]
        rfl
      · intro c0 hc
        apply i3
        rw [m1, m2, List.foldl_append, ← hc]
      · intro hw
        apply i4
        intro p hp hpnone
        rw [m4] at hp
        rw [m3]
        rcases List.mem_append.mp hp with hold | hnew
        · exact List.mem_append_left _ (hw p hold hpnone)
        · rcases List.mem_map.mp hnew with ⟨it, hit, he⟩
          apply List.mem_append_right
          have htg : truthyGet pb it.id = none := by
            have : p.2 = truthyGet pb it.id := by rw [← he]
            rw [← this, hpnone]
          have hp1 : p.1 = it := by rw [← he]
          rw [hp1]
          unfold mergeWarnings
          apply List.mem_filterMap.mpr
          exact ⟨it, hit, by rw [htg]⟩

/-- Source tracking for `resultById` across the chunk loop: every recorded
value is a fallback text, an initial-cache value, or a value inserted into
the cache by the extractor. -/
theorem procBatches_resultById (options : TranslationOptions) (oracle : Nat → CodexRaw)
    (items0 : List Item) (c0 : CacheMap) :
    ∀ (batches : List (List Item)) (st st' : TBState),
      procBatches options oracle batches st = .ok st' →
      (∀ b ∈ batches, ∀ x ∈ b, x ∈ items0) →
      (∀ q ∈ st.resultById, ∃ it ∈ items0, q.1 = it.id ∧
        (q.2 = it.text ∨ (∃ k, mapGet c0 k = some q.2) ∨
          q.2 ∈ st.insertions.map Prod.snd)) →
      ∀ q ∈ st'.resultById, ∃ it ∈ items0, q.1 = it.id ∧
        (q.2 = it.text ∨ (∃ k, mapGet c0 k = some q.2) ∨
          q.2 ∈ st'.insertions.map Prod.snd) := by
  intro batches
  induction batches with
  | nil =>
    intro st st' h hb hinv
    have : st = st' := by simpa [procBatches] using h
    subst this
    exact hinv
  | cons batch rest ih =>
    intro st st' h hb hinv
    simp only [procBatches] at h
    split at h
    · exact absurd h (by simp)
    · rename_i st2 heq
      obtain ⟨pb, m1, m2, m3, m4, m5, m6⟩ :=
        procBatch_ok_spec options _ batch { st with invocations := st.invocations + 1 } st2 heq
      apply ih st2 st' h (fun b hbmem => hb b (List.mem_cons_of_mem _ hbmem))
      intro q hq
      rcases m6 q hq with hold | ⟨it, hit, hid, hcase⟩
      · obtain ⟨it, hitmem, hid, hsrc⟩ := hinv q hold
        refine ⟨it, hitmem, hid, ?_⟩
        rcases hsrc with h1 | h2 | h3
        · exact Or.inl h1
        · exact Or.inr (Or.inl h2)
        · refine Or.inr (Or.inr ?_)
          rw [m2]
          simp only [List.map_append]
          exact List.mem_append_left _ h3
      · have hitems0 : it ∈ items0 := hb batch (List.mem_cons_self _ _) it hit
        refine ⟨it, hitems0, hid, ?_⟩
        rcases hcase with h1 | h2
        · exact Or.inl h1
        · refine Or.inr (Or.inr ?_)
          rw [m2]
          simp only [List.map_append]
          apply List.mem_append_right
          apply List.mem_map.mpr
          refine ⟨(cacheKey it options, q.2), ?_, rfl⟩
          unfold mergeInserts
          apply List.mem_filterMap.mpr
          exact ⟨it, hit, by rw [h2]; rfl⟩

/-! ### C1 -/

/-- C1: on every successful `translateBatch`, the result list mirrors the
normalized input items one-to-one in original order: the id lists are
equal (hence same length and id set, and ids are duplicate-free whenever
the input ids are), and each result's text is either that item's own
(clipped) source text as fallback, or a genuine translation — a value
from the initial cache or a value the extractor produced (equivalently,
inserted into the cache) during the request. -/
theorem claim_C1 (c : CacheMap) (options : TranslationOptions) (items : List Item)
    (oracle : Nat → CodexRaw) (out : BatchOutcome)
    (h : translateBatch c options items oracle = .ok out) :
    out.resp.results.map (fun r => r.id) = items.map (fun it => it.id) ∧
      out.resp.results.length = items.length ∧
      (∀ id, (∃ r ∈ out.resp.results, r.id = id) ↔ ∃ it ∈ items, it.id = id) ∧
      ((items.map (fun it => it.id)).Nodup → (out.resp.results.map (fun r => r.id)).Nodup) ∧
      ∀ r ∈ out.resp.results,
        (∃ it ∈ items, it.id = r.id ∧ r.translatedText = it.text) ∨
          (∃ k, mapGet c k = some r.translatedText) ∨
          r.translatedText ∈ out.insertions.map Prod.snd := by
  simp only [translateBatch] at h
  split at h
  · exact absurd h (by simp)
  · rename_i st heq
    simp only [Except.ok.injEq] at h
    subst h
    have hpred : ∀ q ∈ st.resultById, ∃ it ∈ items, q.1 = it.id ∧
        (q.2 = it.text ∨ (∃ k, mapGet c k = some q.2) ∨
          q.2 ∈ st.insertions.map Prod.snd) := by
      apply procBatches_resultById options oracle items c _ _ st heq
      · intro b hb x hx
        have hxpend := mem_chunk _ _ b hb x hx
        have h2 := (partition_spec c options items ([], [], 0)).2.1
        unfold partitionItems at hxpend
        rw [h2] at hxpend
        simp only [List.nil_append] at hxpend
        exact List.mem_of_mem_filter hxpend
      · intro q hq
        have h3 := (partition_spec c options items ([], [], 0)).2.2 q hq
        rcases h3 with hnil | ⟨it, hit, hid, hv⟩
        · simp at hnil
        · exact ⟨it, hit, hid, Or.inr (Or.inl ⟨cacheKey it options, hv⟩)⟩
    refine ⟨by simp, by simp, ?_, ?_, ?_⟩
    · intro id
      simp only [List.mem_map]
      constructor
      · rintro ⟨r, ⟨it, hit, rfl⟩, hr⟩
        exact ⟨it, hit, hr⟩
      · rintro ⟨it, hit, hid⟩
        exact ⟨⟨it.id, truthyOrOpt (mapGet st.resultById it.id) it.text⟩,
          ⟨it, hit, rfl⟩, hid⟩
    · intro hnd
      simpa [List.map_map, Function.comp_def] using hnd
    · intro r hr
      rcases List.mem_map.mp hr with ⟨it, hit, rfl⟩
      simp only
      cases hg : mapGet st.resultById it.id with
      | none => exact Or.inl ⟨it, hit, rfl, by simp [truthyOrOpt, hg]⟩
      | some v =>
        by_cases hv : v = ""
        · exact Or.inl ⟨it, hit, rfl, by simp [truthyOrOpt, truthyOr, hg, hv]⟩
        · have htx : truthyOrOpt (some v) it.text = v := by
            simp [truthyOrOpt, truthyOr, hv]
          rw [htx]
          have hmem := mapGet_mem st.resultById it.id v hg
          rcases hpred (it.id, v) hmem with ⟨it2, hit2, hid2, hsrc⟩
          rcases hsrc with h1 | h2 | h3
          · exact Or.inl ⟨it2, hit2, hid2.symm, h1⟩
          · exact Or.inr (Or.inl h2)
          · exact Or.inr (Or.inr h3)

/-- The oracle for the C1/C9 witnesses: codex answers with a strict JSON
translation of item `p1`. -/
def c1Oracle : Nat → CodexRaw := fun _ =>
  ⟨0, "", "", "\x7b\"results\":[\x7b\"id\":\"p1\",\"translatedText\":\"Bonjour\"\x7d]\x7d", false⟩

/-- Options shared by the C1/C7/C9 witnesses. -/
def c7Opts : TranslationOptions := ⟨"auto", "zh-CN", "", "bilingual", "natural", 6⟩

/-- The successful outcome of the C1 witness run. -/
def c1Out : BatchOutcome :=
  match translateBatch [] c7Opts [⟨"p1", "Hello"⟩] c1Oracle with
  | .ok o => o
  | .error _ => default

/-- C1 witness: the end-to-end one-item run returns exactly one result
carrying id `p1`. -/
theorem claim_C1_witness : c1Out.resp.results.map (fun r => r.id) = ["p1"] := by
  have h := (claim_C1 [] c7Opts [⟨"p1", "Hello"⟩] c1Oracle c1Out rfl).1
  rw [h]
  rfl

/-! ### C7 -/

theorem itemsMapGet (g : Item → String) :
    ∀ (l : List Item) (it : Item), it ∈ l → (l.map Item.id).Nodup →
      mapGet (l.map (fun x => (x.id, g x))) it.id = some (g it) := by
  intro l
  induction l with
  | nil => intro it h; simp at h
  | cons x xt ih =>
    intro it hit hnd
    rcases List.mem_cons.mp hit with rfl | hmem
    · simp [mapGet, List.find?_cons]
    · have hne : x.id ≠ it.id := by
        intro he
        have hm : it.id ∈ xt.map Item.id := List.mem_map.mpr ⟨it, hmem, rfl⟩
        rw [List.map_cons, List.nodup_cons] at hnd
        exact hnd.1 (he ▸ hm)
      have hrec := ih it hmem (by rw [List.map_cons, List.nodup_cons] at hnd; exact hnd.2)
      simpa [mapGet, List.find?_cons, hne] using hrec

theorem partition_allhit_resultById (c : CacheMap) (options : TranslationOptions) :
    ∀ (items : List Item) (acc : CacheMap × List Item × Nat),
      (∀ it ∈ items, mapHas c (cacheKey it options) = true) →
      (∀ it ∈ items, ∀ q ∈ acc.1, q.1 ≠ it.id) →
      (items.map Item.id).Nodup →
      (items.foldl (partitionStep c options) acc).1
        = acc.1 ++ items.map (fun it => (it.id, (mapGet c (cacheKey it options)).getD "")) := by
  intro items
  induction items with
  | nil => intro acc _ _ _; simp
  | cons item rest ih =>
    intro acc hall hacc hnd
    rw [List.foldl_cons]
    have hhit := hall item (List.mem_cons_self _ _)
    have hs : partitionStep c options acc item
        = (mapSet acc.1 item.id ((mapGet c (cacheKey item options)).getD ""),
            acc.2.1, acc.2.2 + 1) := by
      simp [partitionStep, hhit]
    have hset : mapSet acc.1 item.id ((mapGet c (cacheKey item options)).getD "")
        = acc.1 ++ [(item.id, (mapGet c (cacheKey item options)).getD "")] :=
      mapSet_not_mem _ _ _ (hacc item (List.mem_cons_self _ _))
    rw [hs, ih _ (fun it hit => hall it (List.mem_cons_of_mem _ hit)) ?hacc2 ?hnd2]
    · simp only
      rw [hset, List.map_cons, List.append_assoc]
      rfl
    case hacc2 =>
      intro it hit q hq
      simp only at hq
      rw [hset] at hq
      rcases List.mem_append.mp hq with hold | hnew
      · exact hacc it (List.mem_cons_of_mem _ hit) q hold
      · rcases List.mem_singleton.mp hnew with rfl
        simp only
        intro he
        rw [List.map_cons, List.nodup_cons] at hnd
        exact hnd.1 (he ▸ List.mem_map.mpr ⟨it, hit, rfl⟩)
    case hnd2 =>
      rw [List.map_cons, List.nodup_cons] at hnd
      exact hnd.2

/-- C7: on every successful `translateBatch`, `meta.cacheHits` counts
exactly the items whose cache key is present in the cache and
`meta.generated` the rest; and when every item is a cache hit the request
succeeds with zero codex invocations, no cache insertions, the cache
unchanged, no warnings, `cacheHits = total`, `generated = 0` — and (for
duplicate-free ids) every result is resolved from the cached value. -/
theorem claim_C7 (c : CacheMap) (options : TranslationOptions) (items : List Item)
    (oracle : Nat → CodexRaw) :
    (∀ out, translateBatch c options items oracle = .ok out →
        out.resp.meta.cacheHits
            = (items.filter (fun it => mapHas c (cacheKey it options))).length ∧
          out.resp.meta.generated = items.length - out.resp.meta.cacheHits) ∧
      ((∀ it ∈ items, mapHas c (cacheKey it options) = true) →
        ∃ out, translateBatch c options items oracle = .ok out ∧
          out.invocations = 0 ∧ out.insertions = [] ∧ out.cache = c ∧
          out.resp.warnings = [] ∧
          out.resp.meta.cacheHits = items.length ∧ out.resp.meta.generated = 0 ∧
          ((items.map Item.id).Nodup →
            out.resp.results = items.map (fun it =>
              ⟨it.id, truthyOr ((mapGet c (cacheKey it options)).getD "") it.text⟩))) := by
  have hhits : (partitionItems c options items).2.2
      = (items.filter (fun it => mapHas c (cacheKey it options))).length := by
    have h1 := (partition_spec c options items ([], [], 0)).1
    simp only [Nat.zero_add] at h1
    unfold partitionItems
    exact h1
  constructor
  · intro out h
    simp only [translateBatch] at h
    split at h
    · exact absurd h (by simp)
    · simp only [Except.ok.injEq] at h
      subst h
      exact ⟨hhits, rfl⟩
  · intro hall
    have hfilter : items.filter (fun it => ¬ mapHas c (cacheKey it options)) = [] := by
      rw [List.filter_eq_nil_iff]
      intro a ha
      simp [hall a ha]
    have hpend : (partitionItems c options items).2.1 = [] := by
      have h2 := (partition_spec c options items ([], [], 0)).2.1
      unfold partitionItems
      rw [h2, hfilter]
      rfl
    have hhits2 : (partitionItems c options items).2.2 = items.length := by
      rw [hhits]
      congr 1
      rw [List.filter_eq_self]
      intro a ha
      simp [hall a ha]
    have htb : translateBatch c options items oracle = .ok
        { resp := {
            results := items.map (fun item =>
              ⟨item.id, truthyOrOpt (mapGet (partitionItems c options items).1 item.id)
                item.text⟩)
            warnings := []
            meta := {
              provider := "openai-codex-auth"
              model := truthyOr options.model "default"
              total := items.length
              cacheHits := (partitionItems c options items).2.2
              generated := items.length - (partitionItems c options items).2.2 } }
          cache := c
          insertions := []
          merged := []
          invocations := 0 } := by
      simp only [translateBatch, hpend]
      rfl
    refine ⟨_, htb, rfl, rfl, rfl, rfl, hhits2, by simp [hhits2], ?_⟩
    intro hnd
    have hr0 : (partitionItems c options items).1
        = items.map (fun it => (it.id, (mapGet c (cacheKey it options)).getD "")) := by
      have := partition_allhit_resultById c options items ([], [], 0) hall
        (by intro it _ q hq; simp at hq) hnd
      unfold partitionItems
      rw [this]
      rfl
    simp only [hr0]
    apply List.map_congr_left
    intro it hit
    rw [itemsMapGet (fun x => (mapGet c (cacheKey x options)).getD "") items it hit hnd]
    rfl

/-- One cached item for the C7 witness. -/
def c7Item : Item := ⟨"p1", "Hello"⟩

/-- A cache already holding the C7 witness item under its exact key. -/
def c7Cache : CacheMap := [(cacheKey c7Item c7Opts, "Bonjour")]

/-- C7 witness: with the item already cached, the request is served with
one cache hit, nothing generated and zero codex invocations. -/
theorem claim_C7_witness :
    (translateBatch c7Cache c7Opts [c7Item] (fun _ => default)).map
      (fun out => (out.invocations, out.insertions.length, out.resp.meta.cacheHits,
        out.resp.meta.generated)) = .ok (0, 0, 1, 0) := by
  obtain ⟨out, htb, hinv, hins, _, _, hch, hg, _⟩ :=
    (claim_C7 c7Cache c7Opts [c7Item] (fun _ => default)).2 (by decide)
  rw [htb]
  simp [Except.map, hinv, hins, hch, hg]

/-! ### C9 -/

theorem mapHas_iff_exists (m : CacheMap) (k : String) :
    mapHas m k = true ↔ ∃ p ∈ m, p.1 = k := by
  unfold mapHas mapGet
  cases hf : m.find? (fun p => p.1 == k) with
  | none =>
    constructor
    · intro h
      simp at h
    · rintro ⟨p, hp, hpk⟩
      have h2 := List.find?_eq_none.mp hf p hp
      simp [hpk] at h2
  | some q =>
    constructor
    · intro _
      have hmem := List.mem_of_find?_eq_some hf
      have hq := List.find?_some hf
      simp at hq
      exact ⟨q, hmem, hq⟩
    · intro _
      simp

theorem mapHas_setCacheValue (m : CacheMap) (k' v k : String)
    (h : mapHas (setCacheValue m k' v) k = true) : mapHas m k = true ∨ k = k' := by
  rcases (mapHas_iff_exists _ _).mp h with ⟨p, hp, hpk⟩
  unfold setCacheValue at hp
  rcases mem_mapSet_cases _ _ _ _ hp with hin | heq
  · have hmem : p ∈ m := by
      split at hin
      · split at hin
        · split at hin
          · exact List.mem_of_mem_filter hin
          · exact hin
        · exact hin
      · exact hin
    exact Or.inl ((mapHas_iff_exists _ _).mpr ⟨p, hmem, hpk⟩)
  · right
    rw [← hpk, heq]

theorem mapHas_foldl_setCache :
    ∀ (l : List (String × String)) (c0 : CacheMap) (k : String),
      mapHas (l.foldl (fun cc q => setCacheValue cc q.1 q.2) c0) k = true →
      mapHas c0 k = true ∨ ∃ v, (k, v) ∈ l := by
  intro l
  induction l with
  | nil => intro c0 k h; exact Or.inl h
  | cons q rest ih =>
    intro c0 k h
    rw [List.foldl_cons] at h
    rcases ih _ k h with hbase | ⟨v, hv⟩
    · rcases mapHas_setCacheValue _ _ _ _ hbase with h1 | h2
      · exact Or.inl h1
      · right
        refine ⟨q.2, ?_⟩
        rw [h2]
        exact List.mem_cons_self _ _
    · exact Or.inr ⟨v, List.mem_cons_of_mem _ hv⟩

/-- C9: only extractor-produced translations ever enter the cache. On every
successful `translateBatch`: the `setCacheValue` calls are exactly the
merged truthy extractor values keyed by the item's cache key (fallback
items insert nothing); the final cache is the initial cache plus exactly
those insertions; every fallback item's warning is present in the
response; and a key absent from the initial cache and never inserted is
still absent afterwards — so the same item text would be sent to the
external tool again on a later identical request. -/
theorem claim_C9 (c : CacheMap) (options : TranslationOptions) (items : List Item)
    (oracle : Nat → CodexRaw) (out : BatchOutcome)
    (h : translateBatch c options items oracle = .ok out) :
    out.insertions = out.merged.filterMap (insertOf options) ∧
      out.cache = out.insertions.foldl (fun cc q => setCacheValue cc q.1 q.2) c ∧
      (∀ p ∈ out.merged, p.2 = none → fallbackMsg p.1 ∈ out.resp.warnings) ∧
      (∀ k, mapHas c k = false → (∀ v, (k, v) ∉ out.insertions) →
        mapHas out.cache k = false) := by
  simp only [translateBatch] at h
  split at h
  · exact absurd h (by simp)
  · rename_i st heq
    simp only [Except.ok.injEq] at h
    subst h
    obtain ⟨_, i2, i3, i4⟩ := procBatches_invariants options oracle _ _ st heq
    have h1 : st.insertions = st.merged.filterMap (insertOf options) := i2 (by simp)
    have h2 : st.cache = st.insertions.foldl (fun cc q => setCacheValue cc q.1 q.2) c :=
      i3 c (by simp)
    refine ⟨h1, h2, ?_, ?_⟩
    · exact i4 (by intro p hp; simp at hp)
    · intro k hmiss hnoins
      simp only
      cases hres : mapHas st.cache k with
      | false => rfl
      | true =>
        rw [h2] at hres
        rcases mapHas_foldl_setCache _ _ _ hres with hbase | ⟨v, hv⟩
        · rw [hmiss] at hbase
          exact absurd hbase (by simp)
        · exact absurd hv (hnoins v)

/-- The successful outcome of the C9 witness run: two items, the oracle
only translates `p1`, so `p2` falls back. -/
def c9Out : BatchOutcome :=
  match translateBatch [] c7Opts [⟨"p1", "Hello"⟩, ⟨"p2", "World"⟩] c1Oracle with
  | .ok o => o
  | .error _ => default

/-- C9 witness: in the two-item run with one missing row, the insertions
are exactly the merged extractor values and the fallback warning for `p2`
is present. -/
theorem claim_C9_witness :
    c9Out.insertions = c9Out.merged.filterMap (insertOf c7Opts) ∧
      fallbackMsg ⟨"p2", "World"⟩ ∈ c9Out.resp.warnings := by
  have h := claim_C9 [] c7Opts [⟨"p1", "Hello"⟩, ⟨"p2", "World"⟩] c1Oracle c9Out rfl
  exact ⟨h.1, h.2.2.1 (⟨"p2", "World"⟩, none) (by decide) rfl⟩

/-! ### C2: the extractor recovers JSON embedded in prose

`SafeChar` delimits the string contents quantified over: any printable
character other than the JSON string delimiters `"`/`\` and the fence
backtick — braces and brackets are explicitly allowed, which is the point
of the claim. -/

/-- Characters allowed verbatim inside the quantified string values. -/
def SafeChar (ch : Char) : Prop :=
  ch ≠ '"' ∧ ch ≠ '\\' ∧ ch ≠ '`' ∧ 0x20 ≤ ch.toNat

instance : DecidablePred SafeChar := fun ch => by
  unfold SafeChar
  infer_instance

/-- Rendered JSON string literal. -/
def renderStr (s : String) : List Char := '"' :: (s.data ++ ['"'])

/-- Rendered row object, exactly the expected schema
`\x7b"id":"…","translatedText":"…"\x7d`. -/
def renderRow (r : Row) : List Char :=
  "\x7b\"id\":".data ++ renderStr r.id ++ ",\"translatedText\":".data
    ++ renderStr r.translatedText ++ ['\x7d']

/-- Rendered comma-separated rows. -/
def renderRows : List Row → List Char
  | [] => []
  | [r] => renderRow r
  | r :: rest => renderRow r ++ ',' :: renderRows rest

/-- The rendered expected-shape value `\x7b"results":[…]\x7d`. -/
def jsonOfChars (rows : List Row) : List Char :=
  "\x7b\"results\":[".data ++ renderRows rows ++ "]\x7d".data

/-- `jsonOfChars` as a string. -/
def jsonOf (rows : List Row) : String := ⟨jsonOfChars rows⟩

/-- The parsed value of one rendered row. -/
def rowJson (r : Row) : Json :=
  .obj [("id", .str r.id), ("translatedText", .str r.translatedText)]

/-- The parsed value of the rendered document. -/
def jsonVal (rows : List Row) : Json := .obj [("results", .arr (rows.map rowJson))]

/-- Characters that do not interact with the balanced scan outside a
string. -/
def NeutralChar (ch : Char) : Prop :=
  ch ≠ '"' ∧ ch ≠ '{' ∧ ch ≠ '[' ∧ ch ≠ '}' ∧ ch ≠ ']'

instance : DecidablePred NeutralChar := fun ch => by
  unfold NeutralChar
  infer_instance

theorem scan_neutral :
    ∀ (cs : List Char), (∀ c ∈ cs, NeutralChar c) →
      ∀ (rest : List Char) (stack : List Char) (acc : List Char),
        sliceBalancedAux (cs ++ rest) stack false false acc
          = sliceBalancedAux rest stack false false (cs.reverse ++ acc) := by
  intro cs
  induction cs with
  | nil => intro _ rest stack acc; simp
  | cons c ct ih =>
    intro h rest stack acc
    obtain ⟨h1, h2, h3, h4, h5⟩ := h c (List.mem_cons_self _ _)
    rw [List.cons_append]
    rw [show sliceBalancedAux (c :: (ct ++ rest)) stack false false acc
        = sliceBalancedAux (ct ++ rest) stack false false (c :: acc) from by
      simp [sliceBalancedAux, h1, h2, h3, h4, h5]]
    rw [ih (fun x hx => h x (List.mem_cons_of_mem _ hx)) rest stack (c :: acc)]
    simp

theorem scan_instring :
    ∀ (cs : List Char), (∀ c ∈ cs, c ≠ '"' ∧ c ≠ '\\') →
      ∀ (rest : List Char) (stack : List Char) (acc : List Char),
        sliceBalancedAux (cs ++ '"' :: rest) stack true false acc
          = sliceBalancedAux rest stack false false ('"' :: (cs.reverse ++ acc)) := by
  intro cs
  induction cs with
  | nil =>
    intro _ rest stack acc
    simp [sliceBalancedAux]
  | cons c ct ih =>
    intro h rest stack acc
    obtain ⟨h1, h2⟩ := h c (List.mem_cons_self _ _)
    rw [List.cons_append]
    rw [show sliceBalancedAux (c :: (ct ++ '"' :: rest)) stack true false acc
        = sliceBalancedAux (ct ++ '"' :: rest) stack true false (c :: acc) from by
      simp [sliceBalancedAux, h1, h2]]
    rw [ih (fun x hx => h x (List.mem_cons_of_mem _ hx)) rest stack (c :: acc)]
    simp

theorem scan_strlit (s : String) (hsafe : ∀ c ∈ s.data, c ≠ '"' ∧ c ≠ '\\')
    (rest stack acc : List Char) :
    sliceBalancedAux (renderStr s ++ rest) stack false false acc
      = sliceBalancedAux rest stack false false ((renderStr s).reverse ++ acc) := by
  unfold renderStr
  rw [List.cons_append]
  rw [show sliceBalancedAux ('"' :: ((s.data ++ ['"']) ++ rest)) stack false false acc
      = sliceBalancedAux ((s.data ++ ['"']) ++ rest) stack true false ('"' :: acc) from by
    simp [sliceBalancedAux]]
  rw [List.append_assoc, List.singleton_append]
  rw [scan_instring s.data hsafe rest stack ('"' :: acc)]
  simp

theorem scan_open (c : Char) (hc : c = '{' ∨ c = '[') (rest stack acc : List Char) :
    sliceBalancedAux (c :: rest) stack false false acc
      = sliceBalancedAux rest (c :: stack) false false (c :: acc) := by
  rcases hc with rfl | rfl <;> simp [sliceBalancedAux]

theorem scan_close_brace (rest stack2 acc : List Char) (hne : stack2 ≠ []) :
    sliceBalancedAux ('}' :: rest) ('{' :: stack2) false false acc
      = sliceBalancedAux rest stack2 false false ('}' :: acc) := by
  simp [sliceBalancedAux, hne]

theorem scan_close_bracket (rest stack2 acc : List Char) (hne : stack2 ≠ []) :
    sliceBalancedAux (']' :: rest) ('[' :: stack2) false false acc
      = sliceBalancedAux rest stack2 false false (']' :: acc) := by
  simp [sliceBalancedAux, hne]

theorem scan_final_brace (rest acc : List Char) :
    sliceBalancedAux ('}' :: rest) ['{'] false false acc = some ('}' :: acc).reverse := by
  simp [sliceBalancedAux]

/-- A segment the scan walks through without touching the stack. -/
def Transparent (seg : List Char) : Prop :=
  ∀ (rest stack acc : List Char),
    sliceBalancedAux (seg ++ rest) stack false false acc
      = sliceBalancedAux rest stack false false (seg.reverse ++ acc)

/-- A segment the scan walks through neutrally whenever the stack is
non-empty. -/
def TransparentNE (seg : List Char) : Prop :=
  ∀ (rest stack acc : List Char), stack ≠ [] →
    sliceBalancedAux (seg ++ rest) stack false false acc
      = sliceBalancedAux rest stack false false (seg.reverse ++ acc)

theorem Transparent.toNE {seg : List Char} (h : Transparent seg) : TransparentNE seg :=
  fun rest stack acc _ => h rest stack acc

theorem transparent_append {a b : List Char} (ha : Transparent a) (hb : Transparent b) :
    Transparent (a ++ b) := by
  intro rest stack acc
  rw [List.append_assoc, ha, hb]
  simp

theorem transparentNE_append {a b : List Char} (ha : TransparentNE a) (hb : TransparentNE b) :
    TransparentNE (a ++ b) := by
  intro rest stack acc hs
  rw [List.append_assoc, ha _ _ _ hs, hb _ _ _ hs]
  simp

theorem transparent_neutral {cs : List Char} (h : ∀ c ∈ cs, NeutralChar c) :
    Transparent cs :=
  fun rest stack acc => scan_neutral cs h rest stack acc

theorem transparent_strlit (s : String) (hsafe : ∀ c ∈ s.data, c ≠ '"' ∧ c ≠ '\\') :
    Transparent (renderStr s) :=
  fun rest stack acc => scan_strlit s hsafe rest stack acc

theorem transparentNE_row (r : Row) (hid : ∀ c ∈ r.id.data, SafeChar c)
    (htx : ∀ c ∈ r.translatedText.data, SafeChar c) :
    TransparentNE (renderRow r) := by
  have hseg : Transparent (renderStr "id" ++ ([':'] ++ (renderStr r.id ++ ([','] ++
      (renderStr "translatedText" ++ ([':'] ++ renderStr r.translatedText)))))) := by
    refine transparent_append (transparent_strlit _ (by decide)) ?_
    refine transparent_append (transparent_neutral (by decide)) ?_
    refine transparent_append
      (transparent_strlit _ (fun c hc => ⟨(hid c hc).1, (hid c hc).2.1⟩)) ?_
    refine transparent_append (transparent_neutral (by decide)) ?_
    refine transparent_append (transparent_strlit _ (by decide)) ?_
    exact transparent_append (transparent_neutral (by decide))
      (transparent_strlit _ (fun c hc => ⟨(htx c hc).1, (htx c hc).2.1⟩))
  intro rest stack acc hs
  have hshape : renderRow r ++ rest
      = '{' :: ((renderStr "id" ++ ([':'] ++ (renderStr r.id ++ ([','] ++
          (renderStr "translatedText" ++ ([':'] ++ renderStr r.translatedText))))))
          ++ ('}' :: rest)) := by
    simp [renderRow, renderStr, List.append_assoc]
  rw [hshape, scan_open '{' (Or.inl rfl), hseg, scan_close_brace _ _ _ hs]
  congr 1
  simp [renderRow, renderStr, List.append_assoc]

theorem transparentNE_rows :
    ∀ rows : List Row, rows ≠ [] →
      (∀ r ∈ rows, (∀ c ∈ r.id.data, SafeChar c) ∧
        (∀ c ∈ r.translatedText.data, SafeChar c)) →
      TransparentNE (renderRows rows) := by
  intro rows
  induction rows with
  | nil => intro h; exact absurd rfl h
  | cons r rest ih =>
    intro _ hsafe
    cases rest with
    | nil =>
      exact transparentNE_row r (hsafe r (List.mem_cons_self _ _)).1
        (hsafe r (List.mem_cons_self _ _)).2
    | cons r2 rest2 =>
      have h1 := transparentNE_row r (hsafe r (List.mem_cons_self _ _)).1
        (hsafe r (List.mem_cons_self _ _)).2
      have h2 := ih (by simp) (fun x hx => hsafe x (List.mem_cons_of_mem _ hx))
      have hcomma : TransparentNE [','] :=
        (transparent_neutral (by decide)).toNE
      have := transparentNE_append h1 (transparentNE_append hcomma h2)
      intro rest stack acc hs
      have hshape : renderRows (r :: r2 :: rest2)
          = renderRow r ++ ([','] ++ renderRows (r2 :: rest2)) := by
        simp [renderRows]
      rw [hshape]
      exact this rest stack acc hs

theorem sliceBalanced_jsonOf (rows : List Row) (hne : rows ≠ [])
    (hsafe : ∀ r ∈ rows, (∀ c ∈ r.id.data, SafeChar c) ∧
      (∀ c ∈ r.translatedText.data, SafeChar c)) (srest : List Char) :
    sliceBalancedJson (jsonOfChars rows ++ srest) = some (jsonOfChars rows) := by
  have hres : Transparent (renderStr "results" ++ [':']) :=
    transparent_append (transparent_strlit _ (by decide)) (transparent_neutral (by decide))
  have hrows := transparentNE_rows rows hne hsafe
  have hshape : jsonOfChars rows ++ srest
      = '{' :: ((renderStr "results" ++ [':'])
          ++ ('[' :: (renderRows rows ++ (']' :: ('}' :: srest))))) := by
    simp [jsonOfChars, renderStr, List.append_assoc]
  unfold sliceBalancedJson
  rw [hshape, scan_open '{' (Or.inl rfl), hres,
    scan_open '[' (Or.inr rfl), hrows _ _ _ (by simp),
    scan_close_bracket _ _ _ (by simp), scan_final_brace]
  congr 1
  simp [jsonOfChars, renderStr, List.append_assoc]

/-! #### Parser success on the rendered document -/

theorem parseStrChars_safe :
    ∀ (cs : List Char), (∀ c ∈ cs, c ≠ '"' ∧ c ≠ '\\' ∧ 0x20 ≤ c.toNat) →
      ∀ rest, parseStrChars (cs ++ '"' :: rest) = some (cs, rest) := by
  intro cs
  induction cs with
  | nil => intro _ rest; rfl
  | cons c ct ih =>
    intro h rest
    obtain ⟨h1, h2, h3⟩ := h c (List.mem_cons_self _ _)
    rw [List.cons_append]
    rw [parseStrChars.eq_def]
    split
    · rename_i heq; exact absurd heq (by simp)
    · rename_i heq
      rw [List.cons.injEq] at heq
      exact absurd heq.1 h1
    · rename_i h1' h2' h3' h4' heq
      rw [List.cons.injEq] at heq
      exact absurd heq.1 h2
    · rename_i heq
      rw [List.cons.injEq] at heq
      exact absurd heq.1 h2
    · rename_i c2 rest2 heq
      rw [List.cons.injEq] at heq
      obtain ⟨rfl, hrest⟩ := heq
      rw [← hrest]
      rw [if_pos h3]
      rw [ih (fun x hx => h x (List.mem_cons_of_mem _ hx)) rest]
      rfl

theorem skipWs_cons_of (c : Char) (l : List Char) (hc : jsonWs c = false) :
    skipWs (c :: l) = c :: l := by
  simp [skipWs, List.dropWhile_cons, hc]

theorem parseValue_str (f : Nat) (cs rest : List Char) (h : skipWs cs = '"' :: rest) :
    parseValue (f + 1) cs = (parseStrChars rest).map (fun p => (.str ⟨p.1⟩, p.2)) := by
  rw [parseValue, h]
  simp

theorem parseValue_renderStr (f : Nat) (s : String)
    (hsafe : ∀ c ∈ s.data, SafeChar c) (rest : List Char) :
    parseValue (f + 1) (renderStr s ++ rest) = some (.str s, rest) := by
  have h : skipWs (renderStr s ++ rest) = '"' :: (s.data ++ ('"' :: rest)) := by
    rw [show renderStr s ++ rest = '"' :: (s.data ++ ('"' :: rest)) from by
      simp [renderStr]]
    exact skipWs_cons_of _ _ (by decide)
  rw [parseValue_str f _ _ h,
    parseStrChars_safe s.data
      (fun c hc => ⟨(hsafe c hc).1, (hsafe c hc).2.1, (hsafe c hc).2.2.2⟩) rest]
  rfl

theorem parseValue_row (r : Row) (hid : ∀ c ∈ r.id.data, SafeChar c)
    (htx : ∀ c ∈ r.translatedText.data, SafeChar c) (g : Nat) (rest : List Char) :
    parseValue (g + 4) (renderRow r ++ rest) = some (rowJson r, rest) := by
  have hshape : renderRow r ++ rest
      = '{' :: ('"' :: ("id".data ++ ('"' :: (':' :: (renderStr r.id ++ (',' :: ('"' ::
          ("translatedText".data ++ ('"' :: (':' :: (renderStr r.translatedText
            ++ ('}' :: rest)))))))))))) := by
    simp [renderRow, renderStr, List.append_assoc]
  rw [hshape]
  show (match parseValue (g + 2) (renderStr r.id ++ (',' :: ('"' :: ("translatedText".data
      ++ ('"' :: (':' :: (renderStr r.translatedText ++ ('}' :: rest)))))))) with
    | none => none
    | some (v, r3) =>
      match skipWs r3 with
      | ',' :: r4 => parseMembers (g + 2) r4 [(("id" : String), v)]
      | '}' :: r4 => some (Json.obj [(("id" : String), v)], r4)
      | _ => none) = some (rowJson r, rest)
  rw [show (g + 2) = (g + 1) + 1 from rfl, parseValue_renderStr (g + 1) r.id hid]
  show parseMembers ((g + 1) + 1) ('"' :: ("translatedText".data ++ ('"' :: (':' ::
      (renderStr r.translatedText ++ ('}' :: rest))))))
      [(("id" : String), Json.str r.id)] = some (rowJson r, rest)
  show (match parseValue (g + 1) (renderStr r.translatedText ++ ('}' :: rest)) with
    | none => none
    | some (v, r3) =>
      match skipWs r3 with
      | ',' :: r4 => parseMembers (g + 1) r4
          [(("id" : String), Json.str r.id), (("translatedText" : String), v)]
      | '}' :: r4 => some (Json.obj [(("id" : String), Json.str r.id),
          (("translatedText" : String), v)], r4)
      | _ => none) = some (rowJson r, rest)
  rw [show (g + 1) = g + 1 from rfl, parseValue_renderStr g r.translatedText htx]
  rfl

theorem parseElems_rows :
    ∀ (rows : List Row), rows ≠ [] →
      (∀ r ∈ rows, (∀ c ∈ r.id.data, SafeChar c) ∧
        (∀ c ∈ r.translatedText.data, SafeChar c)) →
      ∀ (g : Nat), rows.length + 4 ≤ g + 1 → ∀ (acc : List Json) (rest : List Char),
        parseElems (g + 1) (renderRows rows ++ (']' :: rest)) acc
          = some (.arr (acc ++ rows.map rowJson), rest) := by
  intro rows
  induction rows with
  | nil => intro h; exact absurd rfl h
  | cons r rs ih =>
    intro _ hsafe g hg acc rest
    cases rs with
    | nil =>
      obtain ⟨g2, rfl⟩ : ∃ g2, g = g2 + 4 := ⟨g - 4, by simp at hg; omega⟩
      show (match parseValue (g2 + 4) (renderRows [r] ++ (']' :: rest)) with
        | none => none
        | some (v, r1) =>
          match skipWs r1 with
          | ',' :: r2 => parseElems (g2 + 4) r2 (acc ++ [v])
          | ']' :: r2 => some (Json.arr (acc ++ [v]), r2)
          | _ => none) = some (.arr (acc ++ [r].map rowJson), rest)
      rw [show renderRows [r] = renderRow r from rfl]
      rw [parseValue_row r (hsafe r (List.mem_cons_self _ _)).1
        (hsafe r (List.mem_cons_self _ _)).2 g2 (']' :: rest)]
      rfl
    | cons r2 rs2 =>
      obtain ⟨g2, rfl⟩ : ∃ g2, g = g2 + 4 := ⟨g - 4, by simp at hg; omega⟩
      show (match parseValue (g2 + 4) (renderRows (r :: r2 :: rs2) ++ (']' :: rest)) with
        | none => none
        | some (v, r1) =>
          match skipWs r1 with
          | ',' :: r2x => parseElems (g2 + 4) r2x (acc ++ [v])
          | ']' :: r2x => some (Json.arr (acc ++ [v]), r2x)
          | _ => none) = some (.arr (acc ++ (r :: r2 :: rs2).map rowJson), rest)
      rw [show renderRows (r :: r2 :: rs2) ++ (']' :: rest)
          = renderRow r ++ (',' :: (renderRows (r2 :: rs2) ++ (']' :: rest))) from by
        simp [renderRows, List.append_assoc]]
      rw [parseValue_row r (hsafe r (List.mem_cons_self _ _)).1
        (hsafe r (List.mem_cons_self _ _)).2 g2 _]
      show parseElems ((g2 + 3) + 1) (renderRows (r2 :: rs2) ++ (']' :: rest))
          (acc ++ [rowJson r]) = some (.arr (acc ++ (r :: r2 :: rs2).map rowJson), rest)
      rw [ih (by simp) (fun x hx => hsafe x (List.mem_cons_of_mem _ hx)) (g2 + 3)
        (by simp at hg ⊢; omega) (acc ++ [rowJson r]) rest]
      simp

theorem parseValue_jsonOf (rows : List Row) (hne : rows ≠ [])
    (hsafe : ∀ r ∈ rows, (∀ c ∈ r.id.data, SafeChar c) ∧
      (∀ c ∈ r.translatedText.data, SafeChar c))
    (g : Nat) (hg : rows.length ≤ g) (rest : List Char) :
    parseValue (g + 7) (jsonOfChars rows ++ rest) = some (jsonVal rows, rest) := by
  obtain ⟨r, rs, rfl⟩ : ∃ r rs, rows = r :: rs := by
    cases rows with
    | nil => exact absurd rfl hne
    | cons r rs => exact ⟨r, rs, rfl⟩
  have hshape : jsonOfChars (r :: rs) ++ rest
      = '{' :: ('"' :: ("results".data ++ ('"' :: (':' :: ('[' ::
          (renderRows (r :: rs) ++ (']' :: ('}' :: rest)))))))) := by
    simp [jsonOfChars, List.append_assoc]
  rw [hshape]
  show (match (match skipWs (renderRows (r :: rs) ++ (']' :: ('}' :: rest))) with
      | ']' :: r2 => some (Json.arr [], r2)
      | r2 => parseElems (g + 4) r2 []) with
    | none => none
    | some (v, r3) =>
      match skipWs r3 with
      | ',' :: r4 => parseMembers (g + 5) r4 [(("results" : String), v)]
      | '}' :: r4 => some (Json.obj [(("results" : String), v)], r4)
      | _ => none) = some (jsonVal (r :: rs), rest)
  obtain ⟨t, ht⟩ : ∃ t, renderRows (r :: rs) ++ (']' :: ('}' :: rest)) = '{' :: t := by
    cases rs <;> exact ⟨_, rfl⟩
  rw [ht]
  show (match parseElems (g + 4) ('{' :: t) [] with
    | none => none
    | some (v, r3) =>
      match skipWs r3 with
      | ',' :: r4 => parseMembers (g + 5) r4 [(("results" : String), v)]
      | '}' :: r4 => some (Json.obj [(("results" : String), v)], r4)
      | _ => none) = some (jsonVal (r :: rs), rest)
  rw [← ht]
  rw [show (g + 4) = (g + 3) + 1 from rfl]
  rw [parseElems_rows (r :: rs) hne hsafe (g + 3) (by simp at hg ⊢; omega) [] ('}' :: rest)]
  rfl

theorem renderRows_length : ∀ rows : List Row, rows.length ≤ (renderRows rows).length := by
  intro rows
  induction rows with
  | nil => simp [renderRows]
  | cons r rs ih =>
    cases rs with
    | nil => simp [renderRows, renderRow, renderStr]
    | cons r2 rs2 =>
      rw [show renderRows (r :: r2 :: rs2) = renderRow r ++ (',' :: renderRows (r2 :: rs2))
        from rfl]
      simp at ih ⊢
      omega

theorem jsonParse_jsonOf (rows : List Row) (hne : rows ≠ [])
    (hsafe : ∀ r ∈ rows, (∀ c ∈ r.id.data, SafeChar c) ∧
      (∀ c ∈ r.translatedText.data, SafeChar c)) :
    jsonParse (jsonOf rows) = some (jsonVal rows) := by
  unfold jsonParse
  have hlen : rows.length ≤ (jsonOfChars rows).length := by
    have h1 := renderRows_length rows
    simp [jsonOfChars]
    omega
  have h1 : parseValue (2 * (jsonOf rows).data.length + 8) ((jsonOf rows).data)
      = some (jsonVal rows, []) := by
    have h2 : (jsonOf rows).data = jsonOfChars rows ++ [] := by simp [jsonOf]
    rw [show 2 * (jsonOf rows).data.length + 8
        = (2 * (jsonOfChars rows).length + 1) + 7 from by
      have h3 : (jsonOf rows).data.length = (jsonOfChars rows).length := by rw [h2]; simp
      omega]
    rw [h2]
    exact parseValue_jsonOf rows hne hsafe _ (by omega) []
  rw [h1]
  rfl


/-! ### C2: robust extraction of embedded JSON (server.mjs:245-289, 338-358) -/

theorem rowsOf_jsonVal (rows : List Row) : rowsOf (jsonVal rows) = rows.map rowJson := rfl

theorem normRowsGo_rowJson :
    ∀ (rows : List Row) (items : List Item) (i : Nat),
      (∀ r ∈ rows, r.id ≠ "" ∧ jsTrim r.translatedText = r.translatedText ∧
        r.translatedText ≠ "") →
      normRowsGo (rows.map rowJson) items i = rows := by
  intro rows
  induction rows with
  | nil => intro items i _; rfl
  | cons r rs ih =>
    intro items i h
    obtain ⟨h1, h2, h3⟩ := h r (List.mem_cons_self _ _)
    rw [List.map_cons]
    show (if r.id ≠ "" ∧ jsTrim r.translatedText ≠ "" then
        (⟨r.id, jsTrim r.translatedText⟩ : Row) :: normRowsGo (rs.map rowJson) items (i + 1)
      else normRowsGo (rs.map rowJson) items (i + 1)) = r :: rs
    rw [if_pos ⟨h1, by rw [h2]; exact h3⟩]
    rw [h2, ih items (i + 1) (fun x hx => h x (List.mem_cons_of_mem _ hx))]

theorem normalizeParsedResults_jsonVal (rows : List Row) (items : List Item)
    (h : ∀ r ∈ rows, r.id ≠ "" ∧ jsTrim r.translatedText = r.translatedText ∧
      r.translatedText ≠ "") :
    normalizeParsedResults (jsonVal rows) items = rows := by
  unfold normalizeParsedResults
  rw [rowsOf_jsonVal, normRowsGo_rowJson rows items 0 h]

theorem dropWhile_append_cases (P : Char → Bool) (a b : List Char) :
    (a ++ b).dropWhile P
      = if a.dropWhile P = [] then b.dropWhile P else a.dropWhile P ++ b := by
  induction a with
  | nil => simp
  | cons c a2 ih =>
    by_cases hc : P c
    · simp only [List.cons_append, List.dropWhile_cons, hc, if_true, ih]
    · simp [List.dropWhile_cons, hc]

theorem dropWhile_head_false (P : Char → Bool) :
    ∀ (l : List Char) (c : Char), (l.dropWhile P).head? = some c → P c = false := by
  intro l
  induction l with
  | nil => intro c h; simp at h
  | cons x xs ih =>
    intro c h
    by_cases hx : P x = true
    · rw [List.dropWhile_cons, if_pos hx] at h
      exact ih c h
    · rw [List.dropWhile_cons, if_neg hx] at h
      simp at h
      rw [← h]
      simpa using hx

/-- Right trim on character lists. -/
def rstripWs (l : List Char) : List Char := (l.reverse.dropWhile jsWs).reverse

theorem jsTrimChars_eq (l : List Char) : jsTrimChars l = rstripWs (l.dropWhile jsWs) := rfl

theorem jsonOfChars_reverse (rows : List Row) :
    ∃ t, (jsonOfChars rows).reverse = '}' :: (']' :: t) := by
  refine ⟨(renderRows rows).reverse ++ ("\x7b\"results\":[".data).reverse, ?_⟩
  rw [jsonOfChars]
  simp

theorem trim_decomp (pl sl : List Char) (rows : List Row)
    (hp : pl.dropWhile jsWs ≠ []) :
    jsTrimChars (pl ++ (jsonOfChars rows ++ sl))
      = pl.dropWhile jsWs ++ (jsonOfChars rows ++ rstripWs sl) := by
  obtain ⟨t, ht⟩ := jsonOfChars_reverse rows
  rw [jsTrimChars_eq]
  rw [dropWhile_append_cases jsWs pl (jsonOfChars rows ++ sl), if_neg hp]
  unfold rstripWs
  rw [show (pl.dropWhile jsWs ++ (jsonOfChars rows ++ sl)).reverse
      = (sl.reverse ++ (jsonOfChars rows).reverse) ++ (pl.dropWhile jsWs).reverse from by
    simp]
  rw [dropWhile_append_cases jsWs (sl.reverse ++ (jsonOfChars rows).reverse)
    ((pl.dropWhile jsWs).reverse)]
  rw [dropWhile_append_cases jsWs sl.reverse ((jsonOfChars rows).reverse)]
  have hjson : (jsonOfChars rows).reverse.dropWhile jsWs = (jsonOfChars rows).reverse := by
    rw [ht, List.dropWhile_cons, if_neg (by decide)]
  by_cases hsl : sl.reverse.dropWhile jsWs = []
  · rw [if_pos hsl, hjson, if_neg (by rw [ht]; simp), hsl]
    simp [ht]
    rw [← List.reverse_reverse (jsonOfChars rows), ht]
    simp
  · rw [if_neg hsl, if_neg (by simp [hsl])]
    simp

theorem trim_canonical (c0 : Char) (dwp2 json sr : List Char)
    (hc0 : jsWs c0 = false)
    (hsr : sr.reverse.dropWhile jsWs = sr.reverse)
    (hjson : ∃ t, json.reverse = '}' :: t) :
    jsTrimChars ((c0 :: dwp2) ++ (json ++ sr)) = (c0 :: dwp2) ++ (json ++ sr) := by
  obtain ⟨t, ht⟩ := hjson
  rw [jsTrimChars_eq]
  rw [List.cons_append, List.dropWhile_cons, if_neg (by simp [hc0])]
  unfold rstripWs
  rw [show ((c0 :: (dwp2 ++ (json ++ sr))) : List Char).reverse
      = (sr.reverse ++ json.reverse) ++ (dwp2.reverse ++ [c0]) from by simp]
  rw [dropWhile_append_cases jsWs (sr.reverse ++ json.reverse) (dwp2.reverse ++ [c0])]
  rw [dropWhile_append_cases jsWs sr.reverse json.reverse]
  have hjdw : json.reverse.dropWhile jsWs = json.reverse := by
    rw [ht, List.dropWhile_cons, if_neg (by decide)]
  by_cases hsr2 : sr.reverse = []
  · rw [hsr2]
    simp only [List.dropWhile_nil, if_pos rfl]
    rw [hjdw, if_neg (by rw [ht]; simp)]
    have : sr = [] := by simpa using congrArg List.reverse hsr2
    simp [this]
  · rw [hsr, if_neg hsr2, if_neg (by simp [hsr2])]
    simp

def jsonStartChar (ch : Char) : Prop :=
  ch = '{' ∨ ch = '[' ∨ ch = '"' ∨ ch = 't' ∨ ch = 'f' ∨ ch = 'n' ∨ ch = '-' ∨
    ch.isDigit = true

instance : DecidablePred jsonStartChar := fun ch => by
  unfold jsonStartChar
  infer_instance

theorem jsonParse_prose (c0 : Char) (l : List Char) (hws : jsonWs c0 = false)
    (hstart : ¬ jsonStartChar c0) :
    jsonParse ⟨c0 :: l⟩ = none := by
  unfold jsonParse
  unfold jsonStartChar at hstart
  simp only [not_or] at hstart
  obtain ⟨n1, n2, n3, n4, n5, n6, n7, n8⟩ := hstart
  have hdata : (⟨c0 :: l⟩ : String).data = c0 :: l := rfl
  rw [hdata]
  rw [show 2 * (c0 :: l).length + 8 = (2 * (c0 :: l).length + 7) + 1 from by omega]
  rw [parseValue]
  rw [skipWs_cons_of c0 l hws]
  simp only [if_neg n1, if_neg n2, if_neg n3, if_neg n4, if_neg n5, if_neg n6]
  rw [if_neg (by simp [n7, n8])]

theorem fencedMatch_none : ∀ (l : List Char), (∀ c ∈ l, c ≠ '`') → fencedMatch l = none := by
  intro l
  induction l with
  | nil => intro _; rfl
  | cons c rest ih =>
    intro h
    rw [fencedMatch.eq_def]
    split
    · rename_i heq
      rw [List.cons.injEq] at heq
      exact absurd heq.1 (h _ (List.mem_cons_self _ _))
    · rename_i c2 rest2 heq
      rw [List.cons.injEq] at heq
      rw [← heq.2]
      exact ih (fun x hx => h x (List.mem_cons_of_mem _ hx))
    · rename_i heq
      exact absurd heq (by simp)

theorem extractScanGo_skip :
    ∀ (l : List Char), (∀ c ∈ l, c ≠ '{' ∧ c ≠ '[') →
      ∀ rest, extractScanGo (l ++ rest) = extractScanGo rest := by
  intro l
  induction l with
  | nil => intro _ rest; rfl
  | cons c l2 ih =>
    intro h rest
    obtain ⟨h1, h2⟩ := h c (List.mem_cons_self _ _)
    rw [List.cons_append]
    rw [extractScanGo]
    rw [if_neg (by simp [h1, h2])]
    exact ih (fun x hx => h x (List.mem_cons_of_mem _ hx)) rest

theorem extractScanGo_json (rows : List Row) (hne : rows ≠ [])
    (hsafe : ∀ r ∈ rows, (∀ c ∈ r.id.data, SafeChar c) ∧
      (∀ c ∈ r.translatedText.data, SafeChar c)) (srest : List Char) :
    extractScanGo (jsonOfChars rows ++ srest) = some (jsonOfChars rows) := by
  obtain ⟨t, ht⟩ : ∃ t, jsonOfChars rows ++ srest = '{' :: t := ⟨_, rfl⟩
  rw [ht, extractScanGo, if_pos (Or.inl rfl), ← ht,
    sliceBalanced_jsonOf rows hne hsafe srest]
  show (if (jsonParse ⟨jsonOfChars rows⟩).isSome = true then some (jsonOfChars rows)
      else extractScanGo t) = some (jsonOfChars rows)
  rw [show (⟨jsonOfChars rows⟩ : String) = jsonOf rows from rfl,
    jsonParse_jsonOf rows hne hsafe]
  rfl

theorem mem_renderStr (c : Char) (s : String) (h : c ∈ renderStr s) :
    c = '"' ∨ c ∈ s.data := by
  unfold renderStr at h
  rcases List.mem_cons.mp h with h | h
  · exact Or.inl h
  · rcases List.mem_append.mp h with h | h
    · exact Or.inr h
    · exact Or.inl (List.mem_singleton.mp h)

theorem renderRow_no_tick (r : Row) (hid : ∀ c ∈ r.id.data, SafeChar c)
    (htx : ∀ c ∈ r.translatedText.data, SafeChar c) :
    ∀ c ∈ renderRow r, c ≠ '`' := by
  intro c hc
  unfold renderRow at hc
  have hlit1 : ∀ x ∈ ("\x7b\"id\":".data : List Char), x ≠ '`' := by decide
  have hlit2 : ∀ x ∈ (",\"translatedText\":".data : List Char), x ≠ '`' := by decide
  rcases List.mem_append.mp hc with hc | hc
  rotate_left
  · rcases List.mem_singleton.mp hc with rfl
    decide
  rcases List.mem_append.mp hc with hc | hc
  rotate_left
  · rcases mem_renderStr c _ hc with rfl | hc
    · decide
    · exact (htx c hc).2.2.1
  rcases List.mem_append.mp hc with hc | hc
  rotate_left
  · exact hlit2 c hc
  rcases List.mem_append.mp hc with hc | hc
  · exact hlit1 c hc
  · rcases mem_renderStr c _ hc with rfl | hc
    · decide
    · exact (hid c hc).2.2.1

theorem renderRows_no_tick :
    ∀ (rows : List Row),
      (∀ r ∈ rows, (∀ c ∈ r.id.data, SafeChar c) ∧
        (∀ c ∈ r.translatedText.data, SafeChar c)) →
      ∀ c ∈ renderRows rows, c ≠ '`' := by
  intro rows
  induction rows with
  | nil => intro _ c hc; simp [renderRows] at hc
  | cons r rs ih =>
    intro hsafe c hc
    cases rs with
    | nil =>
      exact renderRow_no_tick r (hsafe r (List.mem_cons_self _ _)).1
        (hsafe r (List.mem_cons_self _ _)).2 c hc
    | cons r2 rs2 =>
      rw [show renderRows (r :: r2 :: rs2) = renderRow r ++ (',' :: renderRows (r2 :: rs2))
        from rfl] at hc
      rcases List.mem_append.mp hc with hc | hc
      · exact renderRow_no_tick r (hsafe r (List.mem_cons_self _ _)).1
          (hsafe r (List.mem_cons_self _ _)).2 c hc
      · rcases List.mem_cons.mp hc with rfl | hc
        · decide
        · exact ih (fun x hx => hsafe x (List.mem_cons_of_mem _ hx)) c hc

theorem jsonOfChars_no_tick (rows : List Row)
    (hsafe : ∀ r ∈ rows, (∀ c ∈ r.id.data, SafeChar c) ∧
      (∀ c ∈ r.translatedText.data, SafeChar c)) :
    ∀ c ∈ jsonOfChars rows, c ≠ '`' := by
  intro c hc
  unfold jsonOfChars at hc
  have hlit1 : ∀ x ∈ ("\x7b\"results\":[".data : List Char), x ≠ '`' := by decide
  have hlit2 : ∀ x ∈ ("]\x7d".data : List Char), x ≠ '`' := by decide
  rcases List.mem_append.mp hc with hc | hc
  · rcases List.mem_append.mp hc with hc | hc
    · exact hlit1 c hc
    · exact renderRows_no_tick rows hsafe c hc
  · exact hlit2 c hc

theorem mem_rstripWs (c : Char) (l : List Char) (h : c ∈ rstripWs l) : c ∈ l := by
  unfold rstripWs at h
  rw [List.mem_reverse] at h
  exact List.mem_reverse.mp (List.Sublist.subset (List.dropWhile_sublist _) h)

theorem dropWhile_idem (P : Char → Bool) (l : List Char) :
    (l.dropWhile P).dropWhile P = l.dropWhile P := by
  cases hd : l.dropWhile P with
  | nil => rfl
  | cons c t =>
    have hc : P c = false := by
      apply dropWhile_head_false P l
      rw [hd]
      rfl
    rw [List.dropWhile_cons, if_neg (by simp [hc])]

theorem jsonWs_of_jsWs (c : Char) (h : jsWs c = false) : jsonWs c = false := by
  unfold jsWs at h
  unfold jsonWs
  simp only [Bool.or_eq_false_iff] at h ⊢
  exact h.1.1

theorem extractJsonCandidate_core (t : String) (rows : List Row)
    (c0 : Char) (dwp2 sr : List Char)
    (hdata : jsTrimChars t.data = (c0 :: dwp2) ++ (jsonOfChars rows ++ sr))
    (hc0ws : jsWs c0 = false)
    (hc0start : ¬ jsonStartChar c0)
    (hdwp : ∀ c ∈ c0 :: dwp2, c ≠ '{' ∧ c ≠ '[' ∧ c ≠ '`')
    (hsr : ∀ c ∈ sr, c ≠ '`')
    (hne : rows ≠ [])
    (hsafe : ∀ r ∈ rows, (∀ c ∈ r.id.data, SafeChar c) ∧
      (∀ c ∈ r.translatedText.data, SafeChar c)) :
    extractJsonCandidate t = some (jsonOf rows) := by
  have htrim : jsTrim t = ⟨(c0 :: dwp2) ++ (jsonOfChars rows ++ sr)⟩ := by
    unfold jsTrim
    rw [hdata]
  simp only [extractJsonCandidate]
  rw [htrim]
  have hne2 : (⟨(c0 :: dwp2) ++ (jsonOfChars rows ++ sr)⟩ : String) ≠ "" := by
    intro h
    have := congrArg String.data h
    simp at this
  rw [if_neg hne2]
  have hparse : jsonParse ⟨(c0 :: dwp2) ++ (jsonOfChars rows ++ sr)⟩ = none := by
    rw [show ((c0 :: dwp2) ++ (jsonOfChars rows ++ sr))
        = c0 :: (dwp2 ++ (jsonOfChars rows ++ sr)) from rfl]
    exact jsonParse_prose c0 _ (jsonWs_of_jsWs c0 hc0ws) hc0start
  rw [hparse]
  rw [if_neg (by simp)]
  have hnotick : ∀ c ∈ (c0 :: dwp2) ++ (jsonOfChars rows ++ sr), c ≠ '`' := by
    intro c hc
    rcases List.mem_append.mp hc with hc | hc
    · exact (hdwp c hc).2.2
    · rcases List.mem_append.mp hc with hc | hc
      · exact jsonOfChars_no_tick rows hsafe c hc
      · exact hsr c hc
  rw [show (⟨(c0 :: dwp2) ++ (jsonOfChars rows ++ sr)⟩ : String).data
      = (c0 :: dwp2) ++ (jsonOfChars rows ++ sr) from rfl]
  rw [fencedMatch_none _ hnotick]
  show (extractScanGo ((c0 :: dwp2) ++ (jsonOfChars rows ++ sr))).map
      (fun l => (⟨l⟩ : String)) = some (jsonOf rows)
  rw [extractScanGo_skip (c0 :: dwp2)
    (fun c hc => ⟨(hdwp c hc).1, (hdwp c hc).2.1⟩) (jsonOfChars rows ++ sr)]
  rw [extractScanGo_json rows hne hsafe sr]
  rfl

/-- C2: Robust output parsing. When the model's raw output wraps a
well-formed `results` JSON document in prose — a non-empty prefix holding
no `\x7b`, `[` or backtick and not starting (after trim) with a character
that can begin a JSON value, and a backtick-free suffix — the extractor
recovers exactly the embedded document even when translations contain
brace characters inside string literals, and `parseTranslationOutput`
returns exactly the document's rows. -/
theorem claim_C2 (p s : String) (rows : List Row) (items : List Item)
    (hp : ∀ c ∈ p.data, c ≠ '{' ∧ c ≠ '[' ∧ c ≠ '`')
    (hptrim : p.data.dropWhile jsWs ≠ [])
    (hpstart : ∀ c ∈ (p.data.dropWhile jsWs).take 1, ¬ jsonStartChar c)
    (hs : ∀ c ∈ s.data, c ≠ '`')
    (hne : rows ≠ [])
    (hrows : ∀ r ∈ rows, r.id ≠ "" ∧ r.translatedText ≠ "" ∧
      jsTrim r.translatedText = r.translatedText ∧
      (∀ c ∈ r.id.data, SafeChar c) ∧ (∀ c ∈ r.translatedText.data, SafeChar c)) :
    extractJsonCandidate (p ++ jsonOf rows ++ s) = some (jsonOf rows) ∧
      parseTranslationOutput (p ++ jsonOf rows ++ s) items = .ok rows := by
  have hsafe : ∀ r ∈ rows, (∀ c ∈ r.id.data, SafeChar c) ∧
      (∀ c ∈ r.translatedText.data, SafeChar c) :=
    fun r hr => ⟨(hrows r hr).2.2.2.1, (hrows r hr).2.2.2.2⟩
  have hdata : (p ++ jsonOf rows ++ s).data
      = p.data ++ (jsonOfChars rows ++ s.data) := by
    simp [jsonOf, List.append_assoc]
  cases hd : p.data.dropWhile jsWs with
  | nil => exact absurd hd hptrim
  | cons c0 dwp2 =>
  have hc0ws : jsWs c0 = false := by
    apply dropWhile_head_false jsWs p.data
    rw [hd]
    rfl
  have hc0start : ¬ jsonStartChar c0 := by
    apply hpstart
    rw [hd]
    simp
  have hdwp : ∀ c ∈ c0 :: dwp2, c ≠ '{' ∧ c ≠ '[' ∧ c ≠ '`' := by
    intro c hc
    apply hp
    rw [← hd] at hc
    exact (List.dropWhile_sublist _).subset hc
  have htrimdata : jsTrimChars (p ++ jsonOf rows ++ s).data
      = (c0 :: dwp2) ++ (jsonOfChars rows ++ rstripWs s.data) := by
    rw [hdata, trim_decomp p.data s.data rows hptrim, hd]
  have hsr : ∀ c ∈ rstripWs s.data, c ≠ '`' :=
    fun c hc => hs c (mem_rstripWs c _ hc)
  have hextract : extractJsonCandidate (p ++ jsonOf rows ++ s) = some (jsonOf rows) :=
    extractJsonCandidate_core _ rows c0 dwp2 _ htrimdata hc0ws hc0start hdwp hsr hne hsafe
  refine ⟨hextract, ?_⟩
  have houtput : jsTrim (p ++ jsonOf rows ++ s)
      = ⟨(c0 :: dwp2) ++ (jsonOfChars rows ++ rstripWs s.data)⟩ := by
    unfold jsTrim
    rw [htrimdata]
  simp only [parseTranslationOutput]
  rw [houtput]
  have hne2 : (⟨(c0 :: dwp2) ++ (jsonOfChars rows ++ rstripWs s.data)⟩ : String) ≠ "" := by
    intro h
    have := congrArg String.data h
    simp at this
  rw [if_neg hne2]
  have hcanon : jsTrimChars ((c0 :: dwp2) ++ (jsonOfChars rows ++ rstripWs s.data))
      = (c0 :: dwp2) ++ (jsonOfChars rows ++ rstripWs s.data) := by
    apply trim_canonical c0 dwp2 _ _ hc0ws _
      ⟨_, (jsonOfChars_reverse rows).choose_spec⟩
    unfold rstripWs
    rw [List.reverse_reverse]
    exact dropWhile_idem jsWs s.data.reverse
  have hstruct : structuredRows
      ⟨(c0 :: dwp2) ++ (jsonOfChars rows ++ rstripWs s.data)⟩ items = rows := by
    unfold structuredRows
    rw [extractJsonCandidate_core
      ⟨(c0 :: dwp2) ++ (jsonOfChars rows ++ rstripWs s.data)⟩
      rows c0 dwp2 (rstripWs s.data) hcanon hc0ws hc0start hdwp hsr hne hsafe]
    show (match jsonParse (jsonOf rows) with
      | some parsed => normalizeParsedResults parsed items
      | none => []) = rows
    rw [jsonParse_jsonOf rows hne hsafe]
    show normalizeParsedResults (jsonVal rows) items = rows
    exact normalizeParsedResults_jsonVal rows items
      (fun r hr => ⟨(hrows r hr).1, (hrows r hr).2.2.1, (hrows r hr).2.1⟩)
  rw [hstruct]
  rw [if_pos (by exact List.length_pos.mpr hne)]

def c2Rows : List Row := [⟨"p1", "a \x7d b"⟩]

theorem claim_C2_witness :
    extractJsonCandidate ("Translated: " ++ jsonOf c2Rows ++ "\n(end)")
        = some (jsonOf c2Rows) ∧
      parseTranslationOutput ("Translated: " ++ jsonOf c2Rows ++ "\n(end)")
        [⟨"p1", "src"⟩] = .ok c2Rows :=
  claim_C2 "Translated: " "\n(end)" c2Rows [⟨"p1", "src"⟩]
    (by decide) (by decide) (by decide) (by decide) (by decide) (by decide)

end Bridge
